import Mathlib

/-!
# qt_monkey: agent-side script handler, cross-thread calls, controller-side I/O

A shallow embedding of `src/agent.cpp` and, from `src/qtmonkey_gui.cpp`, of the
process-facing parts of `QtMonkeyAppCtrl` and of `splitCommandLine`.

Two threads exist in the agent: the GUI thread of the host application and the
`AgentThread` (`thread_`).  The agent thread's code is embedded as functions on
an explicit `Agent` state.  Whenever the agent thread waits on a semaphore the
GUI thread's event loop runs: it hands the events posted to the `Agent` object
to `Agent::customEvent`, oldest first.  Those deliveries are part of the state
transformation computed by the waiting function.

Fields and results marked *trace* record what happened (calls made, results
obtained); no modelled control flow reads them.
-/

namespace QtMonkey

/-! ## Data model -/

/-- `QString`, as the sequence of its characters. -/
abbrev QString := String

/-- The two execution contexts of `agent.cpp`: the GUI thread, and `thread_`. -/
inductive QThread where
  | guiThread
  | agentThread
  deriving DecidableEq, Repr

/-- `PacketTypeForMonkey`, the tags `agent.cpp` passes to `sendCommand`. -/
inductive PacketTypeForMonkey where
  | NewUserAppEvent
  | ScriptError
  | ScriptEnd
  | ScriptLog
  deriving DecidableEq, Repr

/-- One call `channelWithMonkey()->sendCommand(ptype, payload)`. -/
structure Packet where
  ptype : PacketTypeForMonkey
  payload : QString
  deriving DecidableEq, Repr

/-- `QEventLoop::ProcessEventsFlags` values used by the agent. -/
inductive ProcessEventsFlag where
  | AllEvents
  deriving DecidableEq, Repr

/-- One call `qApp->processEvents(flags, maxtime)`; `maxtime` is in milliseconds. -/
structure ProcessEventsCall where
  flags : ProcessEventsFlag
  maxtime : Int
  deriving DecidableEq, Repr

/-- The part of the GUI-thread world the posted functions act on.
`clock k` is the `k`-th value `std::chrono::steady_clock::now()` returns, in
nanoseconds; `reads` counts the readings taken so far; `pumps` is the trace of
`processEvents` calls, oldest first. -/
structure Gui where
  clock : Nat → Int
  reads : Nat
  pumps : List ProcessEventsCall

/-- A `std::function<QString()>` run on the GUI thread: `none` when the call
never returns. -/
abbrev GuiFunc := Gui → Option (QString × Gui)

/-- The two lambdas `agent.cpp` wraps into a `FuncEvent` for the GUI thread. -/
inductive Closure where
  /-- The closure `[func, this, &res] { res = func(); guiRunSem_.release(); }`. -/
  | sync (func : GuiFunc)
  /-- The closure `[func, waitSem, res] { *res = func(); waitSem->release(); }`; `cell`
  addresses the `waitSem`/`res` pair shared with the waiting call. -/
  | timed (func : GuiFunc) (cell : Nat)

/-- A `FuncEvent` posted to the `Agent` object.  `serial` is trace: the number
of `postEvent` calls made before this one. -/
structure FuncEvent where
  etype : Nat
  serial : Nat
  body : Closure

/-- Trace entry: `FuncEvent::exec` ran for the event `serial`; `result` is what
the wrapped function returned (`none`: it never returned). -/
structure ExecRecord where
  serial : Nat
  result : Option QString
  deriving DecidableEq, Repr

/-- Trace entry: one call `waitSem->tryAcquire(n, timeoutMsec)` and its result. -/
structure TryAcquireCall where
  n : Nat
  timeoutMsec : Int
  acquired : Bool
  deriving DecidableEq, Repr

/-- State of one `Agent` and of the threads around it. -/
structure Agent where
  /-- Value of `thread_->isFinished()`. -/
  threadFinished : Bool
  /-- The member `eventType_`. -/
  eventType : Nat
  /-- Value of `guiRunSem_.available()`. -/
  guiRunSem : Nat
  /-- The local `QString res` of the `runCodeInGuiThreadSync` call in progress. -/
  res : QString
  /-- The `QSemaphore` of each `runCodeInGuiThreadSyncWithTimeout` call. -/
  waitSem : Nat → Nat
  /-- The shared `QString` of each `runCodeInGuiThreadSyncWithTimeout` call. -/
  timedRes : Nat → QString
  /-- The next unused address for a `waitSem`/`res` pair. -/
  nextCell : Nat
  /-- Events posted to the `Agent` object and not delivered yet, oldest first. -/
  posted : List FuncEvent
  /-- Trace: number of `QCoreApplication::postEvent` calls so far. -/
  postCount : Nat
  /-- Trace: executions of posted closures, oldest first. -/
  execLog : List ExecRecord
  /-- Trace: `tryAcquire` calls, oldest first. -/
  tryAcquireLog : List TryAcquireCall
  /-- The GUI thread is inside a posted function that never returns. -/
  guiHung : Bool
  gui : Gui
  /-- The `sendCommand` calls made on the channel so far, oldest first. -/
  sent : List Packet

/-- How a call made on the agent thread ends. -/
inductive Run (α : Type) where
  /-- An `assert` failed. -/
  | assertFailed
  /-- The call waits forever in `QSemaphore::acquire`. -/
  | blocked (s : Agent)
  | returned (a : α) (s : Agent)

/-! ## GUI side -/

/-- `std::chrono::steady_clock::now()` on the GUI thread. -/
def Gui.now (g : Gui) : Int × Gui :=
  (g.clock g.reads, { g with reads := g.reads + 1 })

/-- `qApp->processEvents(flags, maxtime)`. -/
def Gui.processEvents (flags : ProcessEventsFlag) (maxtime : Int) (g : Gui) : Gui :=
  { g with pumps := g.pumps ++ [⟨flags, maxtime⟩] }

/-- `std::chrono::duration_cast<std::chrono::milliseconds>` of a nanosecond
count: integer division truncating toward zero. -/
def durationCastMs (ns : Int) : Int :=
  Int.tdiv ns 1000000

/-- The `do { ... } while (...)` loop of the settle lambda (agent.cpp 181-185);
`none` when the condition still holds after `fuel` iterations. -/
def settleLoop (startTime : Int) : Nat → Gui → Option Gui
  | 0, _ => none
  | fuel + 1, g =>
    let g1 := g.processEvents .AllEvents 10
    let (t, g2) := g1.now
    if durationCastMs (t - startTime) < 300 then settleLoop startTime fuel g2
    else some g2

/-- The lambda passed to `runCodeInGuiThreadSync` by `onRunScriptCommand`
(agent.cpp 178-188); it returns `QString()`. -/
def settle (fuel : Nat) : GuiFunc := fun g =>
  let (startTime, g1) := g.now
  (settleLoop startTime fuel g1).map fun g2 => ("", g2)

/-- `FuncEvent::exec` for the two closures. -/
def FuncEvent.exec (ev : FuncEvent) (s : Agent) : Agent :=
  match ev.body with
  | .sync func =>
    match func s.gui with
    | none => { s with guiHung := true, execLog := s.execLog ++ [⟨ev.serial, none⟩] }
    | some (r, g) =>
      { s with gui := g, res := r, guiRunSem := s.guiRunSem + 1,
               execLog := s.execLog ++ [⟨ev.serial, some r⟩] }
  | .timed func cell =>
    match func s.gui with
    | none => { s with guiHung := true, execLog := s.execLog ++ [⟨ev.serial, none⟩] }
    | some (r, g) =>
      { s with gui := g, timedRes := Function.update s.timedRes cell r,
               waitSem := Function.update s.waitSem cell (s.waitSem cell + 1),
               execLog := s.execLog ++ [⟨ev.serial, some r⟩] }

/-- `Agent::customEvent` (agent.cpp 223-229); `none` when the assertion fails. -/
def Agent.customEvent (cur : QThread) (event : FuncEvent) (s : Agent) : Option Agent :=
  if cur = .agentThread then none
  else if event.etype ≠ s.eventType then some s
  else some (event.exec s)

/-- One turn of the GUI thread's event loop for the `Agent` object: the oldest
posted event is handed to `customEvent` and destroyed.  Nothing happens while
the GUI thread is stuck in a function or nothing is pending. -/
def Agent.deliver (s : Agent) : Agent :=
  if s.guiHung then s
  else
    match s.posted with
    | [] => s
    | ev :: rest =>
      match Agent.customEvent .guiThread ev { s with posted := rest } with
      | some s1 => s1
      | none => s

/-! ## Agent-thread side -/

/-- `QCoreApplication::postEvent(this, new FuncEvent(etype, body))`. -/
def Agent.postEvent (etype : Nat) (body : Closure) (s : Agent) : Agent :=
  { s with posted := s.posted ++ [⟨etype, s.postCount, body⟩],
           postCount := s.postCount + 1 }

/-- `thread->channelWithMonkey()->sendCommand(ptype, payload)`. -/
def Agent.sendCommand (ptype : PacketTypeForMonkey) (payload : QString) (s : Agent) : Agent :=
  { s with sent := s.sent ++ [⟨ptype, payload⟩] }

/-- `guiRunSem_.acquire()` on the agent thread.  While the semaphore is empty
the GUI thread delivers pending events; `n` bounds the deliveries (the number of
pending events suffices).  The flag is `false` when the wait never ends. -/
def Agent.acquireGuiRunSem : Nat → Agent → Bool × Agent
  | 0, s =>
    if 0 < s.guiRunSem then (true, { s with guiRunSem := s.guiRunSem - 1 })
    else (false, s)
  | n + 1, s =>
    if 0 < s.guiRunSem then (true, { s with guiRunSem := s.guiRunSem - 1 })
    else Agent.acquireGuiRunSem n s.deliver

/-- `Agent::runCodeInGuiThreadSync` (agent.cpp 211-221). -/
def Agent.runCodeInGuiThreadSync (cur : QThread) (func : GuiFunc) (s : Agent) :
    Run QString :=
  if cur ≠ .agentThread then .assertFailed
  else
    let s1 := Agent.postEvent s.eventType (.sync func) { s with res := "" }
    match Agent.acquireGuiRunSem s1.posted.length s1 with
    | (false, s2) => .blocked s2
    | (true, s2) => .returned s2.res s2

/-- The `Agent::sendToLog` slot (agent.cpp 195-201), reachable from scripts. -/
def Agent.sendToLog (msg : QString) (s : Agent) : Agent :=
  if s.threadFinished then s
  else Agent.sendCommand .ScriptLog msg s

/-- 32-bit two's-complement value of an `int` expression. -/
def wrapInt32 (x : Int) : Int :=
  (x + 2147483648) % 4294967296 - 2147483648

/-- The wait inside `waitSem->tryAcquire(1, timeoutMsec)` for the semaphore at
`cell`: the GUI thread delivers pending events until the semaphore is released,
at most `budget` of them before the timeout expires. -/
def Agent.tryAcquireWait (cell : Nat) : Nat → Agent → Bool × Agent
  | 0, s =>
    if 0 < s.waitSem cell then
      (true, { s with waitSem := Function.update s.waitSem cell (s.waitSem cell - 1) })
    else (false, s)
  | budget + 1, s =>
    if 0 < s.waitSem cell then
      (true, { s with waitSem := Function.update s.waitSem cell (s.waitSem cell - 1) })
    else Agent.tryAcquireWait cell budget s.deliver

/-- `waitSem->tryAcquire(1, timeoutMsec)`, with its trace entry. -/
def Agent.tryAcquire (cell : Nat) (timeoutMsec : Int) (budget : Nat) (s : Agent) :
    Bool × Agent :=
  match Agent.tryAcquireWait cell budget s with
  | (ok, s1) => (ok, { s1 with tryAcquireLog := s1.tryAcquireLog ++ [⟨1, timeoutMsec, ok⟩] })

/-- The loop `for (int attempt = 0; attempt < N; ++attempt)` of
`runCodeInGuiThreadSyncWithTimeout` (agent.cpp 253-258) with `remaining`
iterations left.  `sched attempt` is the number of events the GUI thread gets
through during wait number `attempt`. -/
def Agent.waitAttempts (cell : Nat) (waitIntervalMsec : Int) (sched : Nat → Nat) :
    Nat → Nat → Agent → QString × Agent
  | 0, _, s => ("", s)
  | remaining + 1, attempt, s =>
    match Agent.tryAcquire cell waitIntervalMsec (sched attempt) s with
    | (true, s1) => (s1.timedRes cell, s1)
    | (false, s1) => Agent.waitAttempts cell waitIntervalMsec sched remaining (attempt + 1) s1

/-- The `int N` computed at agent.cpp 250-252. -/
def attemptsN (timeoutSecs : Int) : Int :=
  let timeoutMsec := wrapInt32 (timeoutSecs * 1000)
  let waitIntervalMsec := 100
  wrapInt32 (Int.tdiv timeoutMsec waitIntervalMsec + 1)

/-- `Agent::runCodeInGuiThreadSyncWithTimeout` (agent.cpp 238-259). -/
def Agent.runCodeInGuiThreadSyncWithTimeout (cur : QThread) (func : GuiFunc)
    (timeoutSecs : Int) (sched : Nat → Nat) (s : Agent) : Run QString :=
  if cur ≠ .agentThread then .assertFailed
  else
    let cell := s.nextCell
    let s0 := { s with nextCell := s.nextCell + 1,
                       waitSem := Function.update s.waitSem cell 0,
                       timedRes := Function.update s.timedRes cell "" }
    let s1 := Agent.postEvent s.eventType (.timed func cell) s0
    let waitIntervalMsec := 100
    let N := attemptsN timeoutSecs
    match Agent.waitAttempts cell waitIntervalMsec sched N.toNat 0 s1 with
    | (r, s2) => .returned r s2

/-- `Agent::onRunScriptCommand` (agent.cpp 158-193).  `runScript` stands for
`ScriptRunner::runScript(script, errMsg)`, which is not part of the sources at
hand: it yields the error text and the agent state the script leaves behind.
The `CurrentScriptContext` guard around it only sets `curScriptRunner_` for the
time of the run, a member nothing embedded here reads.  The first branch is the
early `return` of `GET_THREAD`.  `fuel` bounds the iterations of the settle
loop. -/
def Agent.onRunScriptCommand {Script : Type} (runScript : Script → Agent → QString × Agent)
    (fuel : Nat) (cur : QThread) (script : Script) (s : Agent) : Run Unit :=
  if s.threadFinished then .returned () s
  else if cur ≠ .agentThread then .assertFailed
  else
    match runScript script s with
    | (errMsg, s1) =>
      if errMsg ≠ "" then
        let s2 := Agent.sendCommand .ScriptError errMsg s1
        .returned () (Agent.sendCommand .ScriptEnd "" s2)
      else
        match Agent.runCodeInGuiThreadSync cur (settle fuel) s1 with
        | .assertFailed => .assertFailed
        | .blocked s2 => .blocked s2
        | .returned _ s2 => .returned () (Agent.sendCommand .ScriptEnd "" s2)

/-- How a signal/slot connection runs the slot. -/
inductive ConnectionType where
  | DirectConnection
  | QueuedConnection
  deriving DecidableEq, Repr

/-- The connection type `AgentThread::run` passes when wiring the channel's
`runScript` signal to `Agent::onRunScriptCommand` (agent.cpp 87-91). -/
def AgentThread.runScriptConnection : ConnectionType := .DirectConnection

/-- Thread on which a slot runs (Qt's rule): a direct connection calls the slot
at once in the emitting thread, a queued one in the receiver's thread. -/
def slotThread (conn : ConnectionType) (emitter receiver : QThread) : QThread :=
  match conn with
  | .DirectConnection => emitter
  | .QueuedConnection => receiver

/-- The thread that runs `onRunScriptCommand` when the channel, which lives in
the agent thread, emits `runScript`; the `Agent` object lives in the GUI thread. -/
def AgentThread.runScriptSlotThread : QThread :=
  slotThread AgentThread.runScriptConnection .agentThread .guiThread

/-! ## Controller side (`qtmonkey_gui.cpp`) -/

/-- `QByteArray`, as the list of its bytes. -/
abbrev QByteArray := List (Fin 256)

/-- `QByteArray::remove(pos, len)`: nothing happens when `len` is zero or `pos`
is past the end; the array is cut at `pos` when fewer than `len` bytes follow. -/
def QByteArray.remove (pos len : Nat) (a : QByteArray) : QByteArray :=
  if len = 0 ∨ a.length ≤ pos then a
  else a.take pos ++ a.drop (pos + len)

/-- Signals emitted by `QtMonkeyAppCtrl`. -/
inductive Signal where
  | monkeyAppFinishedSignal (msg : QString)
  | monkeyAppNewEvent (scriptLines : QString)
  | monkeyUserAppError (errMsg : QString)
  | monkeyScriptEnd
  | monkeScriptLog (msg : QString)
  | criticalError (msg : QString)
  deriving DecidableEq, Repr

/-- A callback invocation made by `qt_monkey_app::parseOutputFromMonkeyApp`, by
position in its argument list (qtmonkey_gui.cpp 81-96). -/
inductive ParserCall where
  | onNewUserAppEvent (eventScriptLines : QString)
  | onUserAppError (userAppErrors : QString)
  | onScriptEnd
  | onScriptLog (scriptLog : QString)
  | onParseError (data : QString)
  deriving DecidableEq, Repr

/-- Trace entry: one call `qtmonkeyApp_.write(data.data() + offset, maxSize)`
and the count it returned. -/
structure WriteCall where
  offset : Int
  maxSize : Int
  nbytes : Int
  deriving DecidableEq, Repr

/-- State of one `QtMonkeyAppCtrl` and of its `QProcess`. -/
structure QtMonkeyAppCtrl where
  /-- The member `jsonFromMonkey_`. -/
  jsonFromMonkey : QByteArray
  /-- The call `qtmonkeyApp_.kill()` has been made. -/
  killed : Bool
  /-- Signals emitted so far, oldest first. -/
  emitted : List Signal
  /-- Bytes the process has accepted on its standard input, in order. -/
  stdinBytes : QByteArray
  /-- Trace: `write` calls, oldest first. -/
  writeLog : List WriteCall
  deriving DecidableEq, Repr

/-- `QString::arg(a)` for a format holding the place marker `%1`. -/
def QString.arg (fmt a : QString) : QString :=
  fmt.replace "%1" a

/-- What the five lambdas handed to the parser do (qtmonkey_gui.cpp 81-96).
`T_` is the translation lookup behind the `T_` call. -/
def QtMonkeyAppCtrl.onParserCall (T_ : String → QString) (c : QtMonkeyAppCtrl) :
    ParserCall → QtMonkeyAppCtrl
  | .onNewUserAppEvent l => { c with emitted := c.emitted ++ [.monkeyAppNewEvent l] }
  | .onUserAppError e => { c with emitted := c.emitted ++ [.monkeyUserAppError e] }
  | .onScriptEnd => { c with emitted := c.emitted ++ [.monkeyScriptEnd] }
  | .onScriptLog l => { c with emitted := c.emitted ++ [.monkeScriptLog l] }
  | .onParseError d =>
    { c with killed := true,
             emitted := c.emitted ++ [.monkeyAppFinishedSignal
               (QString.arg (T_ "Internal Error: problem with monkey<->gui protocol: %1") d)] }

/-- `QtMonkeyAppCtrl::monkeyAppNewOutput` (qtmonkey_gui.cpp 71-100).  `out` is
what `readAllStandardOutput()` returns.  `parseOutputFromMonkeyApp` stands for
the parser of `qtmonkey_app_api.hpp`, which is not part of the sources at hand:
from the bytes it is given it yields the stop position and the callbacks it
makes, in order.  The stop position, a `size_t`, is passed to `remove` as an
`int`; positions are naturals here, the same value for every position inside
the array. -/
def QtMonkeyAppCtrl.monkeyAppNewOutput
    (parseOutputFromMonkeyApp : QByteArray → Nat × List ParserCall)
    (T_ : String → QString) (out : QByteArray) (c : QtMonkeyAppCtrl) : QtMonkeyAppCtrl :=
  let c1 := { c with jsonFromMonkey := c.jsonFromMonkey ++ out }
  match parseOutputFromMonkeyApp c1.jsonFromMonkey with
  | (parserStopPos, calls) =>
    let c2 := calls.foldl (QtMonkeyAppCtrl.onParserCall T_) c1
    if parserStopPos ≠ 0 then
      { c2 with jsonFromMonkey := QByteArray.remove 0 parserStopPos c2.jsonFromMonkey }
    else c2

/-- How the write loop of `runScript` ends. -/
inductive LoopEnd where
  /-- The `return` after `emit criticalError` (qtmonkey_gui.cpp 120-121). -/
  | failed
  /-- The loop condition `sentBytes < data.size()` became false. -/
  | completed
  /-- The loop is still running after the iterations looked at. -/
  | running
  deriving DecidableEq, Repr

/-- Bytes a `write(data.data() + offset, maxSize)` call hands over when the
device takes `nbytes` of them. -/
def acceptedChunk (data : QByteArray) (offset nbytes : Int) : QByteArray :=
  (data.drop offset.toNat).take nbytes.toNat

/-- The `do { ... } while (sentBytes < data.size())` loop of `runScript`
(qtmonkey_gui.cpp 116-124).  `results i` is the count the `i`-th `write` call
returns; `fuel` bounds the iterations looked at.  The loop's counters are
`qint64` values; sums are taken in `Int`.  `T_` is the translation lookup
behind the `T_` call. -/
def writeLoop (T_ : String → QString) (results : Nat → Int) (data : QByteArray) :
    Nat → Nat → Int → QtMonkeyAppCtrl → LoopEnd × QtMonkeyAppCtrl
  | 0, _, _, c => (.running, c)
  | fuel + 1, i, sentBytes, c =>
    let nbytes := results i
    let c1 : QtMonkeyAppCtrl :=
      { c with writeLog := c.writeLog ++ [⟨sentBytes, data.length - sentBytes, nbytes⟩] }
    if nbytes < 0 then
      (.failed, { c1 with emitted := c1.emitted ++
                    [.criticalError (T_ "Can not send data to application")] })
    else
      let c2 : QtMonkeyAppCtrl :=
        { c1 with stdinBytes := c1.stdinBytes ++ acceptedChunk data sentBytes nbytes }
      let sentBytes1 := sentBytes + nbytes
      if sentBytes1 < data.length then writeLoop T_ results data fuel (i + 1) sentBytes1 c2
      else (.completed, c2)

/-- `QtMonkeyAppCtrl::runScript` (qtmonkey_gui.cpp 109-125).
`createPacketFromRunScript` stands for the function of `qtmonkey_app_api.hpp`,
which is not part of the sources at hand. -/
def QtMonkeyAppCtrl.runScript (createPacketFromRunScript : QString → QString → QByteArray)
    (T_ : String → QString) (results : Nat → Int) (fuel : Nat)
    (script scriptFileName : QString) (c : QtMonkeyAppCtrl) : LoopEnd × QtMonkeyAppCtrl :=
  let data := createPacketFromRunScript script scriptFileName ++ [10]
  writeLoop T_ results data fuel 0 0 c

/-! ## Controller side: splitting the argument line -/

/-- The character `"` (U+0022) the splitter compares with. -/
def quoteChar : Char := Char.ofNat 34

/-- The character `\` (U+005C) the splitter compares with. -/
def backslashChar : Char := Char.ofNat 92

/-- The anonymous `enum { Idle, Arg, QuotedArg }` of `splitCommandLine`. -/
inductive SplitState where
  | Idle
  | Arg
  | QuotedArg
  deriving DecidableEq, Repr

/-- The locals of `splitCommandLine` (qtmonkey_gui.cpp 141-144). -/
structure SplitLoop where
  list : List QString
  arg : QString
  escape : Bool
  state : SplitState
  deriving DecidableEq, Repr

/-- One pass through the body of the `foreach` loop of `splitCommandLine`
(qtmonkey_gui.cpp 146-177) for the character `c`.  `isSpace` stands for
`QChar::isSpace`, a function of Qt. -/
def splitStep (isSpace : Char → Bool) (l : SplitLoop) (c : Char) : SplitLoop :=
  if !l.escape && c == backslashChar then { l with escape := true }
  else
    let l1 : SplitLoop :=
      match l.state with
      | .Idle =>
        if !l.escape && c == quoteChar then { l with state := .QuotedArg }
        else if l.escape || !isSpace c then { l with arg := l.arg.push c, state := .Arg }
        else l
      | .Arg =>
        if !l.escape && c == quoteChar then { l with state := .QuotedArg }
        else if l.escape || !isSpace c then { l with arg := l.arg.push c }
        else { l with list := l.list ++ [l.arg], arg := "", state := .Idle }
      | .QuotedArg =>
        if !l.escape && c == quoteChar then
          { l with state := if l.arg.isEmpty then .Idle else .Arg }
        else { l with arg := l.arg.push c }
    { l1 with escape := false }

/-- The locals of `splitCommandLine` after the `foreach` loop has gone through
the characters `cs`. -/
def splitLoop (isSpace : Char → Bool) (cs : List Char) : SplitLoop :=
  cs.foldl (splitStep isSpace) { list := [], arg := "", escape := false, state := .Idle }

/-- What `splitCommandLine` does after the loop (qtmonkey_gui.cpp 179-181). -/
def splitFinish (l : SplitLoop) : List QString :=
  if !l.arg.isEmpty then l.list ++ [l.arg] else l.list

/-- The static function `splitCommandLine` (qtmonkey_gui.cpp 139-182).  The
loop runs over the characters of `cmdLine`; Qt runs it over UTF-16 units, of
which a character beyond U+FFFF has two, neither a quote nor a backslash. -/
def splitCommandLine (isSpace : Char → Bool) (cmdLine : QString) : List QString :=
  splitFinish (splitLoop isSpace cmdLine.toList)

/-! ## Auxiliary notions used by the statements -/

/-- The agent as `Agent::Agent` leaves it (agent.cpp 116-132): `eventType` is
the value `QEvent::registerEventType()` returned, `connected` tells whether the
agent thread reached its event loop (it has finished otherwise). -/
def Agent.create (eventType : Nat) (connected : Bool) (gui : Gui) : Agent :=
  { threadFinished := !connected, eventType := eventType, guiRunSem := 0, res := "",
    waitSem := fun _ => 0, timedRes := fun _ => "", nextCell := 0, posted := [],
    postCount := 0, execLog := [], tryAcquireLog := [], guiHung := false, gui := gui,
    sent := [] }

/-- The state once the GUI thread has taken as many turns as events are
pending in `s`: it has gone through all of them unless it got stuck in one. -/
def Agent.afterPending (s : Agent) : Agent :=
  Agent.deliver^[s.posted.length] s

/-- The GUI thread gets through the events pending in `s` without getting
stuck, and `func`, run right after them, returns. -/
def Agent.GuiCompletes (func : GuiFunc) (s : Agent) : Prop :=
  s.afterPending.guiHung = false ∧ (func s.afterPending.gui).isSome = true

/-- The states the agent can be in between two calls made on the agent thread:
no release is outstanding on `guiRunSem_`, no closure of `runCodeInGuiThreadSync`
is pending (each call waits for its own), the serial numbers in use are below
the number of posts made, and the pending closures of
`runCodeInGuiThreadSyncWithTimeout` refer to pairs already allocated. -/
def Agent.Consistent (s : Agent) : Prop :=
  s.guiRunSem = 0
  ∧ (∀ e ∈ s.posted, e.etype = s.eventType → ∀ f, e.body ≠ .sync f)
  ∧ (∀ e ∈ s.posted, e.serial < s.postCount)
  ∧ (∀ r ∈ s.execLog, r.serial < s.postCount)
  ∧ (∀ e ∈ s.posted, ∀ f c, e.body = .timed f c → c < s.nextCell)

/-- The trace entries of the event with serial number `n`. -/
def Agent.execsOf (n : Nat) (s : Agent) : List ExecRecord :=
  s.execLog.filter fun r => r.serial = n

/-- Two agent states the GUI thread cannot tell apart. -/
def GuiEq (s t : Agent) : Prop :=
  s.gui = t.gui ∧ s.guiHung = t.guiHung ∧ s.posted = t.posted ∧ s.eventType = t.eventType

/-- Following the words "the maximal runs of non-whitespace characters, in
order of appearance (the input split on whitespace with empty pieces
dropped)": the pieces between whitespace characters that are not empty. -/
def nonSpaceRuns (isSpace : Char → Bool) (cs : List Char) : List QString :=
  ((cs.splitOnP isSpace).filter fun piece => !piece.isEmpty).map String.mk

/-- The strings of `args` joined with single spaces, as `QStringList::join(" ")`
does. -/
def joinWithSpaces (args : List QString) : QString :=
  String.intercalate " " args

/-- A steady clock that advances by 100 ms from one reading to the next. -/
def sampleClock : Nat → Int := fun k => 100000000 * k

/-- A GUI world at its start, running on `sampleClock`. -/
def sampleGui : Gui := { clock := sampleClock, reads := 0, pumps := [] }

/-- A connected agent with nothing posted and nothing sent. -/
def sampleAgent : Agent := Agent.create 1000 true sampleGui

/-- A script run that asks the GUI thread, with a timeout of 0 seconds, for a
function that never returns, gets no answer in time, and ends without an
error: the error text is empty and the function is left pending. -/
def hangingScript (_script : Unit) (s : Agent) : QString × Agent :=
  match Agent.runCodeInGuiThreadSyncWithTimeout .agentThread (fun _ => none) 0 (fun _ => 0) s with
  | .returned _ s2 => ("", s2)
  | _ => ("", s)

/-! ## Delivery of posted events -/

theorem customEvent_guiThread (ev : FuncEvent) (s : Agent) :
    Agent.customEvent .guiThread ev s
      = some (if ev.etype ≠ s.eventType then s else ev.exec s) := by
  unfold Agent.customEvent
  by_cases h : ev.etype ≠ s.eventType <;> simp [h]

theorem deliver_cons (s : Agent) (ev : FuncEvent) (rest : List FuncEvent)
    (hh : s.guiHung = false) (hp : s.posted = ev :: rest) :
    s.deliver = if ev.etype ≠ s.eventType then { s with posted := rest }
                else ev.exec { s with posted := rest } := by
  unfold Agent.deliver
  simp only [hh, hp, customEvent_guiThread]
  split <;> simp_all

theorem deliver_hung (s : Agent) (hh : s.guiHung = true) : s.deliver = s := by
  unfold Agent.deliver
  simp [hh]

theorem deliver_nil (s : Agent) (hp : s.posted = []) : s.deliver = s := by
  unfold Agent.deliver
  simp [hp]

theorem exec_frame (ev : FuncEvent) (s : Agent) :
    (ev.exec s).sent = s.sent ∧ (ev.exec s).eventType = s.eventType
    ∧ (ev.exec s).threadFinished = s.threadFinished ∧ (ev.exec s).posted = s.posted
    ∧ (ev.exec s).postCount = s.postCount ∧ (ev.exec s).nextCell = s.nextCell
    ∧ (ev.exec s).tryAcquireLog = s.tryAcquireLog := by
  unfold FuncEvent.exec
  split <;> split <;> simp

theorem exec_with_posted (ev : FuncEvent) (s : Agent) (p : List FuncEvent) :
    ev.exec { s with posted := p } = { ev.exec s with posted := p } := by
  unfold FuncEvent.exec
  split <;> split <;> simp_all

theorem deliver_frame (s : Agent) :
    s.deliver.sent = s.sent ∧ s.deliver.eventType = s.eventType
    ∧ s.deliver.threadFinished = s.threadFinished
    ∧ s.deliver.postCount = s.postCount ∧ s.deliver.nextCell = s.nextCell
    ∧ s.deliver.tryAcquireLog = s.tryAcquireLog := by
  by_cases hh : s.guiHung = true
  · simp [deliver_hung s hh]
  · cases hp : s.posted with
    | nil => simp [deliver_nil s hp]
    | cons ev rest =>
      rw [deliver_cons s ev rest (by simpa using hh) hp]
      split
      · simp
      · have h := exec_frame ev { s with posted := rest }
        simp_all

theorem deliver_posted (s : Agent) (hh : s.guiHung = false) :
    s.deliver.posted = s.posted.tail := by
  cases hp : s.posted with
  | nil => simp [deliver_nil s hp, hp]
  | cons ev rest =>
    rw [deliver_cons s ev rest hh hp]
    split
    · simp
    · have h := exec_frame ev { s with posted := rest }
      simp_all

theorem deliver_append (s : Agent) (ev : FuncEvent) (hne : s.posted ≠ []) :
    Agent.deliver { s with posted := s.posted ++ [ev] }
      = { s.deliver with posted := s.deliver.posted ++ [ev] } := by
  by_cases hh : s.guiHung = true
  · rw [deliver_hung s hh, deliver_hung _ (by simpa using hh)]
  · have hh2 : s.guiHung = false := by simpa using hh
    obtain ⟨e, rest, hp⟩ := List.exists_cons_of_ne_nil hne
    rw [deliver_cons s e rest hh2 hp,
      deliver_cons { s with posted := s.posted ++ [ev] } e (rest ++ [ev]) hh2 (by simp [hp])]
    simp only []
    split
    · rfl
    · unfold FuncEvent.exec
      split <;> split <;> simp_all

theorem exec_guiEq (ev : FuncEvent) (s t : Agent) (h : GuiEq s t) :
    GuiEq (ev.exec s) (ev.exec t) := by
  obtain ⟨h1, h2, h3, h4⟩ := h
  unfold FuncEvent.exec GuiEq
  rw [h1]
  split <;> split <;> simp_all

theorem deliver_guiEq (s t : Agent) (h : GuiEq s t) : GuiEq s.deliver t.deliver := by
  by_cases hh : s.guiHung = true
  · rw [deliver_hung s hh, deliver_hung t (h.2.1 ▸ hh)]
    exact h
  · have hs : s.guiHung = false := by simpa using hh
    have ht : t.guiHung = false := h.2.1 ▸ hs
    cases hp : s.posted with
    | nil =>
      rw [deliver_nil s hp, deliver_nil t (h.2.2.1 ▸ hp)]
      exact h
    | cons e rest =>
      rw [deliver_cons s e rest hs hp, deliver_cons t e rest ht (h.2.2.1 ▸ hp)]
      have hq : GuiEq { s with posted := rest } { t with posted := rest } :=
        ⟨h.1, h.2.1, rfl, h.2.2.2⟩
      by_cases het : e.etype = s.eventType
      · have het2 : e.etype = t.eventType := h.2.2.2 ▸ het
        rw [if_neg (not_not.mpr het), if_neg (not_not.mpr het2)]
        exact exec_guiEq e _ _ hq
      · have het2 : ¬ e.etype = t.eventType := h.2.2.2 ▸ het
        rw [if_pos het, if_pos het2]
        exact hq

theorem iterate_deliver_guiEq (n : Nat) (s t : Agent) (h : GuiEq s t) :
    GuiEq (Agent.deliver^[n] s) (Agent.deliver^[n] t) := by
  induction n generalizing s t with
  | zero => exact h
  | succ n ih =>
    rw [Function.iterate_succ_apply, Function.iterate_succ_apply]
    exact ih _ _ (deliver_guiEq s t h)

theorem acquireGuiRunSem_of_pos (n : Nat) (s : Agent) (h : 0 < s.guiRunSem) :
    Agent.acquireGuiRunSem n s = (true, { s with guiRunSem := s.guiRunSem - 1 }) := by
  cases n <;> simp [Agent.acquireGuiRunSem, h]

theorem acquireGuiRunSem_of_zero (n : Nat) (s : Agent) (h : s.guiRunSem = 0) :
    Agent.acquireGuiRunSem (n + 1) s = Agent.acquireGuiRunSem n s.deliver := by
  simp [Agent.acquireGuiRunSem, h]

theorem exec_sync_some (ev : FuncEvent) (s : Agent) (f : GuiFunc) (r : QString) (g : Gui)
    (hb : ev.body = .sync f) (hf : f s.gui = some (r, g)) :
    ev.exec s = { s with gui := g, res := r, guiRunSem := s.guiRunSem + 1,
                         execLog := s.execLog ++ [⟨ev.serial, some r⟩] } := by
  unfold FuncEvent.exec
  simp [hb, hf]

theorem exec_sync_none (ev : FuncEvent) (s : Agent) (f : GuiFunc)
    (hb : ev.body = .sync f) (hf : f s.gui = none) :
    ev.exec s = { s with guiHung := true, execLog := s.execLog ++ [⟨ev.serial, none⟩] } := by
  unfold FuncEvent.exec
  simp [hb, hf]

/-- Progress of `acquire`: when the GUI thread gets through the pending events
and through the posted function, the wait ends. -/
theorem acquireGuiRunSem_progress (f : GuiFunc) (ev : FuncEvent) (q : List FuncEvent) :
    ∀ s : Agent, s.posted = q → ev.etype = s.eventType → ev.body = .sync f →
      (Agent.deliver^[q.length] s).guiHung = false →
      (f (Agent.deliver^[q.length] s).gui).isSome = true →
      (Agent.acquireGuiRunSem (q.length + 1) { s with posted := s.posted ++ [ev] }).1 = true := by
  induction q with
  | nil =>
    intro s hp het hb hh hf
    simp only [List.length_nil, Function.iterate_zero, id_eq] at hh hf
    by_cases hsem : 0 < s.guiRunSem
    · rw [acquireGuiRunSem_of_pos _ _ (by simpa using hsem)]
    · rw [acquireGuiRunSem_of_zero _ _ (by simpa using hsem)]
      rw [deliver_cons _ ev [] (by simpa using hh) (by simp [hp])]
      obtain ⟨⟨r, g⟩, hfg⟩ := Option.isSome_iff_exists.mp hf
      simp only [het, ne_eq, not_true_eq_false, if_false]
      rw [exec_sync_some ev _ f r g hb (by simpa using hfg)]
      simp [Agent.acquireGuiRunSem]
  | cons e rest ih =>
    intro s hp het hb hh hf
    by_cases hsem : 0 < s.guiRunSem
    · rw [acquireGuiRunSem_of_pos _ _ (by simpa using hsem)]
    · rw [acquireGuiRunSem_of_zero _ _ (by simpa using hsem)]
      rw [List.length_cons, Function.iterate_succ_apply] at hh hf
      have hsh : s.guiHung = false := by
        by_contra hc
        have hc2 : s.guiHung = true := by simpa using hc
        rw [deliver_hung s hc2] at hh
        have : ∀ n, Agent.deliver^[n] s = s := by
          intro n
          induction n with
          | zero => rfl
          | succ n ihn => rw [Function.iterate_succ_apply, deliver_hung s hc2, ihn]
        rw [this] at hh
        rw [hh] at hc2
        exact Bool.false_ne_true hc2
      rw [deliver_append s ev (by simp [hp])]
      have hdp : s.deliver.posted = rest := by rw [deliver_posted s hsh, hp]; rfl
      have := ih s.deliver hdp (by rw [(deliver_frame s).2.1]; exact het) hb hh hf
      simpa [List.length_cons] using this


theorem acquireGuiRunSem_sent (n : Nat) (s : Agent) :
    (Agent.acquireGuiRunSem n s).2.sent = s.sent := by
  induction n generalizing s with
  | zero => unfold Agent.acquireGuiRunSem; split <;> rfl
  | succ n ih =>
    unfold Agent.acquireGuiRunSem
    split
    · rfl
    · rw [ih, (deliver_frame s).1]

theorem runCodeInGuiThreadSync_agentThread (func : GuiFunc) (s : Agent) :
    Agent.runCodeInGuiThreadSync .agentThread func s
      = match Agent.acquireGuiRunSem (s.posted.length + 1)
            (Agent.postEvent s.eventType (.sync func) { s with res := "" }) with
        | (false, s2) => .blocked s2
        | (true, s2) => .returned s2.res s2 := by
  simp only [Agent.runCodeInGuiThreadSync, Agent.postEvent, ne_eq, not_true_eq_false,
    if_false, List.length_append, List.length_singleton]

theorem runCodeInGuiThreadSync_sent (func : GuiFunc) (s : Agent) :
    (∀ r s', Agent.runCodeInGuiThreadSync .agentThread func s = .returned r s' → s'.sent = s.sent)
    ∧ (∀ s', Agent.runCodeInGuiThreadSync .agentThread func s = .blocked s' → s'.sent = s.sent)
    ∧ Agent.runCodeInGuiThreadSync .agentThread func s ≠ .assertFailed := by
  rw [runCodeInGuiThreadSync_agentThread]
  have h := acquireGuiRunSem_sent (s.posted.length + 1)
    (Agent.postEvent s.eventType (.sync func) { s with res := "" })
  generalize Agent.acquireGuiRunSem (s.posted.length + 1)
    (Agent.postEvent s.eventType (.sync func) { s with res := "" }) = out at h
  obtain ⟨b, s2⟩ := out
  cases b
  · refine ⟨?_, ?_, ?_⟩
    · intro r s' h'; cases h'
    · intro s' h'; cases h'; exact h
    · intro h'; cases h'
  · refine ⟨?_, ?_, ?_⟩
    · intro r s' h'; cases h'; exact h
    · intro s' h'; cases h'
    · intro h'; cases h'

theorem runCodeInGuiThreadSync_progress (func : GuiFunc) (s : Agent)
    (h : Agent.GuiCompletes func s) :
    ∃ r s', Agent.runCodeInGuiThreadSync .agentThread func s = .returned r s' := by
  unfold Agent.GuiCompletes Agent.afterPending at h
  rw [runCodeInGuiThreadSync_agentThread]
  have key : (Agent.acquireGuiRunSem (s.posted.length + 1)
      (Agent.postEvent s.eventType (.sync func) { s with res := "" })).1 = true := by
    have hq : GuiEq { s with res := "", postCount := s.postCount + 1 } s := ⟨rfl, rfl, rfl, rfl⟩
    have hi := iterate_deliver_guiEq s.posted.length _ _ hq
    have := acquireGuiRunSem_progress func ⟨s.eventType, s.postCount, .sync func⟩ s.posted
      { s with res := "", postCount := s.postCount + 1 } rfl rfl rfl
      (by rw [hi.2.1]; exact h.1) (by rw [hi.1]; exact h.2)
    exact this
  generalize Agent.acquireGuiRunSem (s.posted.length + 1)
    (Agent.postEvent s.eventType (.sync func) { s with res := "" }) = out at key
  obtain ⟨b, s2⟩ := out
  simp only at key
  subst key
  exact ⟨_, _, rfl⟩

/-! ## The run-script handler -/

theorem onRunScriptCommand_error {Script : Type}
    (runScript : Script → Agent → QString × Agent) (fuel : Nat) (script : Script) (s : Agent)
    (hlive : s.threadFinished = false) (herr : (runScript script s).1 ≠ "") :
    Agent.onRunScriptCommand runScript fuel .agentThread script s
      = .returned () { (runScript script s).2 with
          sent := (runScript script s).2.sent
            ++ [⟨.ScriptError, (runScript script s).1⟩, ⟨.ScriptEnd, ""⟩] } := by
  unfold Agent.onRunScriptCommand
  simp [hlive, herr, Agent.sendCommand]

theorem onRunScriptCommand_ok {Script : Type}
    (runScript : Script → Agent → QString × Agent) (fuel : Nat) (script : Script) (s : Agent)
    (hlive : s.threadFinished = false) (herr : (runScript script s).1 = "") :
    Agent.onRunScriptCommand runScript fuel .agentThread script s
      = match Agent.runCodeInGuiThreadSync .agentThread (settle fuel) (runScript script s).2 with
        | .assertFailed => .assertFailed
        | .blocked s2 => .blocked s2
        | .returned _ s2 => .returned () (Agent.sendCommand .ScriptEnd "" s2) := by
  unfold Agent.onRunScriptCommand
  simp [hlive, herr]

theorem onRunScriptCommand_agentThread_ne_assertFailed {Script : Type}
    (runScript : Script → Agent → QString × Agent) (fuel : Nat) (script : Script) (s : Agent)
    (hlive : s.threadFinished = false) :
    Agent.onRunScriptCommand runScript fuel .agentThread script s ≠ .assertFailed := by
  by_cases herr : (runScript script s).1 = ""
  · rw [onRunScriptCommand_ok runScript fuel script s hlive herr]
    have h3 := (runCodeInGuiThreadSync_sent (settle fuel) (runScript script s).2).2.2
    cases hrun : Agent.runCodeInGuiThreadSync .agentThread (settle fuel) (runScript script s).2 with
    | assertFailed => exact absurd hrun h3
    | blocked s2 => simp
    | returned r s2 => simp
  · rw [onRunScriptCommand_error runScript fuel script s hlive herr]
    simp

/-- C2: on a live agent thread, a non-empty error text makes
`onRunScriptCommand` return having sent exactly `ScriptError` with that text
unchanged and then `ScriptEnd` with the empty payload; with the empty error text
the handler sends no `ScriptError`: it has sent `ScriptEnd` alone when it
returns and nothing while it still waits for the GUI thread. -/
theorem onRunScriptCommand_ScriptError_iff {Script : Type}
    (runScript : Script → Agent → QString × Agent) (fuel : Nat) (script : Script) (s : Agent)
    (hlive : s.threadFinished = false) :
    ((runScript script s).1 ≠ "" →
      ∃ s', Agent.onRunScriptCommand runScript fuel .agentThread script s = .returned () s'
        ∧ s'.sent = (runScript script s).2.sent
            ++ [⟨.ScriptError, (runScript script s).1⟩, ⟨.ScriptEnd, ""⟩])
    ∧ ((runScript script s).1 = "" →
        (∀ s', Agent.onRunScriptCommand runScript fuel .agentThread script s = .returned () s' →
          s'.sent = (runScript script s).2.sent ++ [⟨.ScriptEnd, ""⟩])
        ∧ (∀ s', Agent.onRunScriptCommand runScript fuel .agentThread script s = .blocked s' →
          s'.sent = (runScript script s).2.sent)) := by
  refine ⟨?_, ?_⟩
  · intro herr
    rw [onRunScriptCommand_error runScript fuel script s hlive herr]
    exact ⟨_, rfl, rfl⟩
  · intro herr
    rw [onRunScriptCommand_ok runScript fuel script s hlive herr]
    obtain ⟨h1, h2, h3⟩ := runCodeInGuiThreadSync_sent (settle fuel) (runScript script s).2
    refine ⟨?_, ?_⟩
    · intro s' hs'
      cases hrun : Agent.runCodeInGuiThreadSync .agentThread (settle fuel) (runScript script s).2 with
      | assertFailed => rw [hrun] at hs'; cases hs'
      | blocked s2 => rw [hrun] at hs'; cases hs'
      | returned r s2 =>
        have hsent := h1 r s2 hrun
        rw [hrun] at hs'
        cases hs'
        simp [Agent.sendCommand, hsent]
    · intro s' hs'
      cases hrun : Agent.runCodeInGuiThreadSync .agentThread (settle fuel) (runScript script s).2 with
      | assertFailed => rw [hrun] at hs'; cases hs'
      | blocked s2 =>
        have hsent := h2 s2 hrun
        rw [hrun] at hs'
        cases hs'
        exact hsent
      | returned r s2 => rw [hrun] at hs'; cases hs'

theorem onRunScriptCommand_ScriptError_iff_witness :
    sampleAgent.threadFinished = false
    ∧ ∃ s', Agent.onRunScriptCommand (fun (_ : Unit) s => ("mismatch: got \x27bye\x27", s)) 0
          .agentThread () sampleAgent = .returned () s'
        ∧ s'.sent = [⟨.ScriptError, "mismatch: got \x27bye\x27"⟩, ⟨.ScriptEnd, ""⟩] := by
  refine ⟨rfl, ?_⟩
  exact (onRunScriptCommand_ScriptError_iff
    (fun (_ : Unit) s => ("mismatch: got \x27bye\x27", s)) 0 () sampleAgent rfl).1 (by decide)

/-- C5 (counterexample): run with the GUI thread as the current thread, the
handler of a live agent fails its thread assertion; and the slot connected in
`AgentThread::run` runs on the agent thread, the one that reads the connection. -/
theorem onRunScriptCommand_gui_thread_counterexample :
    Agent.onRunScriptCommand (fun (_ : Unit) s => ("", s)) 5 .guiThread () sampleAgent
        = .assertFailed
    ∧ AgentThread.runScriptSlotThread = .agentThread := by
  constructor <;> rfl

/-- C5 (amended): for a live agent the thread assertion of `onRunScriptCommand`
holds exactly when the current thread is the agent thread `thread_`; the
run-script signal is wired with `Qt::DirectConnection`, so the handler runs at
once on the agent thread, which is the thread reading the connection. -/
theorem onRunScriptCommand_runs_on_agent_thread {Script : Type}
    (runScript : Script → Agent → QString × Agent) (fuel : Nat) (cur : QThread)
    (script : Script) (s : Agent) (hlive : s.threadFinished = false) :
    (Agent.onRunScriptCommand runScript fuel cur script s = .assertFailed ↔ cur ≠ .agentThread)
    ∧ AgentThread.runScriptConnection = .DirectConnection
    ∧ AgentThread.runScriptSlotThread = .agentThread := by
  refine ⟨?_, rfl, rfl⟩
  cases cur with
  | guiThread =>
    simp [Agent.onRunScriptCommand, hlive]
  | agentThread =>
    have h := onRunScriptCommand_agentThread_ne_assertFailed runScript fuel script s hlive
    simp [h]

theorem onRunScriptCommand_runs_on_agent_thread_witness :
    sampleAgent.threadFinished = false
    ∧ (Agent.onRunScriptCommand (fun (_ : Unit) s => ("", s)) 5 .agentThread () sampleAgent
          = .assertFailed ↔ QThread.agentThread ≠ .agentThread)
    ∧ AgentThread.runScriptConnection = .DirectConnection
    ∧ AgentThread.runScriptSlotThread = .agentThread :=
  ⟨rfl, onRunScriptCommand_runs_on_agent_thread (fun (_ : Unit) s => ("", s)) 5 .agentThread ()
    sampleAgent rfl⟩

/-! ## The bounded wait -/

theorem tryAcquireWait_tryAcquireLog (cell : Nat) (budget : Nat) (s : Agent) :
    (Agent.tryAcquireWait cell budget s).2.tryAcquireLog = s.tryAcquireLog := by
  induction budget generalizing s with
  | zero => unfold Agent.tryAcquireWait; split <;> rfl
  | succ b ih =>
    unfold Agent.tryAcquireWait
    split
    · rfl
    · rw [ih, (deliver_frame s).2.2.2.2.2]

theorem tryAcquire_tryAcquireLog (cell : Nat) (iv : Int) (budget : Nat) (s : Agent) :
    (Agent.tryAcquire cell iv budget s).2.tryAcquireLog
      = s.tryAcquireLog ++ [⟨1, iv, (Agent.tryAcquire cell iv budget s).1⟩] := by
  have h := tryAcquireWait_tryAcquireLog cell budget s
  unfold Agent.tryAcquire
  generalize Agent.tryAcquireWait cell budget s = out at h
  obtain ⟨ok, s1⟩ := out
  simp only at h
  simp [h]

/-- The trace the wait loop leaves: at most `k` calls, all of them
`tryAcquire(1, iv)`, only the last of which can have succeeded; and `k` calls
when none succeeded. -/
theorem waitAttempts_tryAcquireLog (cell : Nat) (iv : Int) (sched : Nat → Nat) (k : Nat) :
    ∀ (a : Nat) (s : Agent), ∃ log : List TryAcquireCall,
      (Agent.waitAttempts cell iv sched k a s).2.tryAcquireLog = s.tryAcquireLog ++ log
      ∧ log.length ≤ k
      ∧ (∀ c ∈ log, c.n = 1 ∧ c.timeoutMsec = iv)
      ∧ ((∀ c ∈ log, c.acquired = false) → log.length = k) := by
  induction k with
  | zero =>
    intro a s
    exact ⟨[], by simp [Agent.waitAttempts], by simp, by simp, by simp⟩
  | succ k ih =>
    intro a s
    have hlog := tryAcquire_tryAcquireLog cell iv (sched a) s
    unfold Agent.waitAttempts
    generalize Agent.tryAcquire cell iv (sched a) s = out at hlog
    obtain ⟨ok, s1⟩ := out
    simp only at hlog
    cases ok with
    | true =>
      refine ⟨[⟨1, iv, true⟩], by simpa using hlog, by simp, by simp, ?_⟩
      intro hall
      have := hall ⟨1, iv, true⟩ (by simp)
      simp at this
    | false =>
      obtain ⟨log, h1, h2, h3, h4⟩ := ih (a + 1) s1
      refine ⟨⟨1, iv, false⟩ :: log, ?_, by simp; omega, ?_, ?_⟩
      · simp only [h1, hlog, List.append_assoc, List.singleton_append]
      · intro c hc
        rcases List.mem_cons.mp hc with hc | hc
        · subst hc; simp
        · exact h3 c hc
      · intro hall
        have := h4 (fun c hc => hall c (List.mem_cons_of_mem _ hc))
        simp [this]

theorem wrapInt32_of_range (x : Int) (h1 : -2147483648 ≤ x) (h2 : x ≤ 2147483647) :
    wrapInt32 x = x := by
  unfold wrapInt32
  omega

theorem attemptsN_eq (timeoutSecs : Int) (h0 : 0 ≤ timeoutSecs)
    (hrep : timeoutSecs * 1000 ≤ 2147483647) : attemptsN timeoutSecs = timeoutSecs * 10 + 1 := by
  unfold attemptsN
  simp only []
  rw [wrapInt32_of_range (timeoutSecs * 1000) (by omega) hrep,
    Int.tdiv_eq_ediv (by omega) (by omega)]
  rw [wrapInt32_of_range _ (by omega) (by omega)]
  omega

/-- C9: for `0 ≤ timeoutSecs` with `timeoutSecs * 1000` representable as a
32-bit `int`, the loop bound is `N = timeoutSecs * 10 + 1`;
`runCodeInGuiThreadSyncWithTimeout` returns after at most `N` calls
`tryAcquire(1, 100)`, after exactly `N` of them when none succeeds; and
`timeoutSecs * 1000 ≤ N * 100 ≤ timeoutSecs * 1000 + 100`. -/
theorem runCodeInGuiThreadSyncWithTimeout_attempts (func : GuiFunc) (timeoutSecs : Int)
    (sched : Nat → Nat) (s : Agent)
    (h0 : 0 ≤ timeoutSecs) (hrep : timeoutSecs * 1000 ≤ 2147483647) :
    attemptsN timeoutSecs = timeoutSecs * 10 + 1
    ∧ (∃ r s' log,
        Agent.runCodeInGuiThreadSyncWithTimeout .agentThread func timeoutSecs sched s
          = .returned r s'
        ∧ s'.tryAcquireLog = s.tryAcquireLog ++ log
        ∧ (log.length : Int) ≤ attemptsN timeoutSecs
        ∧ (∀ c ∈ log, c.n = 1 ∧ c.timeoutMsec = 100)
        ∧ ((∀ c ∈ log, c.acquired = false) → (log.length : Int) = attemptsN timeoutSecs))
    ∧ timeoutSecs * 1000 ≤ attemptsN timeoutSecs * 100
    ∧ attemptsN timeoutSecs * 100 ≤ timeoutSecs * 1000 + 100 := by
  have hN := attemptsN_eq timeoutSecs h0 hrep
  refine ⟨hN, ?_, by rw [hN]; omega, by rw [hN]; omega⟩
  unfold Agent.runCodeInGuiThreadSyncWithTimeout
  simp only [ne_eq, not_true_eq_false, if_false]
  obtain ⟨log, h1, h2, h3, h4⟩ := waitAttempts_tryAcquireLog s.nextCell 100 sched
    (attemptsN timeoutSecs).toNat 0
    (Agent.postEvent s.eventType (.timed func s.nextCell)
      { s with nextCell := s.nextCell + 1,
               waitSem := Function.update s.waitSem s.nextCell 0,
               timedRes := Function.update s.timedRes s.nextCell "" })
  have hNn : ((attemptsN timeoutSecs).toNat : Int) = attemptsN timeoutSecs :=
    Int.toNat_of_nonneg (by rw [hN]; omega)
  refine ⟨_, _, log, rfl, ?_, ?_, h3, ?_⟩
  · simpa [Agent.postEvent] using h1
  · rw [← hNn]; exact_mod_cast h2
  · intro hall
    rw [← hNn, h4 hall]

theorem runCodeInGuiThreadSyncWithTimeout_attempts_witness :
    (0 : Int) ≤ 2 ∧ (2 : Int) * 1000 ≤ 2147483647 ∧ attemptsN 2 = 21
    ∧ (2 : Int) * 1000 ≤ attemptsN 2 * 100 ∧ attemptsN 2 * 100 ≤ 2 * 1000 + 100 := by
  have h := runCodeInGuiThreadSyncWithTimeout_attempts (fun g => some ("done", g)) 2
    (fun _ => 0) sampleAgent (by decide) (by decide)
  exact ⟨by decide, by decide, h.1, h.2.2.1, h.2.2.2⟩

/-! ## Controller: output buffer -/

theorem foldl_onParserCall_jsonFromMonkey (T_ : String → QString) (calls : List ParserCall)
    (c : QtMonkeyAppCtrl) :
    (calls.foldl (QtMonkeyAppCtrl.onParserCall T_) c).jsonFromMonkey = c.jsonFromMonkey := by
  induction calls generalizing c with
  | nil => rfl
  | cons call rest ih =>
    rw [List.foldl_cons, ih]
    cases call <;> rfl

theorem QByteArray.remove_zero (p : Nat) (a : QByteArray) (_hp : p ≤ a.length) :
    (if p ≠ 0 then QByteArray.remove 0 p a else a) = a.drop p := by
  by_cases h0 : p = 0
  · simp [h0]
  · simp only [ne_eq, h0, not_false_eq_true, if_true]
    unfold QByteArray.remove
    by_cases hl : a.length ≤ 0
    · have : a = [] := List.length_eq_zero.mp (Nat.le_zero.mp hl)
      simp [this]
    · simp [h0, hl]

/-- C6: with `b` the buffer before the call, `n` the bytes read and
`p ≤ |b ++ n|` the stop position the parser reports on `b ++ n`,
`monkeyAppNewOutput` consults the parser on `b ++ n` and nowhere else, and
leaves the buffer equal to `b ++ n` without its first `p` bytes; for `p = 0`
the buffer is `b ++ n`. -/
theorem monkeyAppNewOutput_keeps_unconsumed
    (parseOutputFromMonkeyApp : QByteArray → Nat × List ParserCall) (T_ : String → QString)
    (n : QByteArray) (c : QtMonkeyAppCtrl)
    (hp : (parseOutputFromMonkeyApp (c.jsonFromMonkey ++ n)).1 ≤ (c.jsonFromMonkey ++ n).length) :
    (QtMonkeyAppCtrl.monkeyAppNewOutput parseOutputFromMonkeyApp T_ n c).jsonFromMonkey
        = (c.jsonFromMonkey ++ n).drop (parseOutputFromMonkeyApp (c.jsonFromMonkey ++ n)).1
    ∧ ((parseOutputFromMonkeyApp (c.jsonFromMonkey ++ n)).1 = 0 →
        (QtMonkeyAppCtrl.monkeyAppNewOutput parseOutputFromMonkeyApp T_ n c).jsonFromMonkey
          = c.jsonFromMonkey ++ n)
    ∧ (∀ parser2 : QByteArray → Nat × List ParserCall,
        parser2 (c.jsonFromMonkey ++ n) = parseOutputFromMonkeyApp (c.jsonFromMonkey ++ n) →
        QtMonkeyAppCtrl.monkeyAppNewOutput parser2 T_ n c
          = QtMonkeyAppCtrl.monkeyAppNewOutput parseOutputFromMonkeyApp T_ n c) := by
  have key : (QtMonkeyAppCtrl.monkeyAppNewOutput parseOutputFromMonkeyApp T_ n c).jsonFromMonkey
      = (c.jsonFromMonkey ++ n).drop (parseOutputFromMonkeyApp (c.jsonFromMonkey ++ n)).1 := by
    rw [← QByteArray.remove_zero _ _ hp]
    unfold QtMonkeyAppCtrl.monkeyAppNewOutput
    simp only []
    split <;> simp [foldl_onParserCall_jsonFromMonkey]
  refine ⟨key, ?_, ?_⟩
  · intro h0
    rw [key, h0]
    rfl
  · intro parser2 h2
    unfold QtMonkeyAppCtrl.monkeyAppNewOutput
    simp only [h2]

theorem monkeyAppNewOutput_keeps_unconsumed_witness :
    (3 : Nat) ≤ (([1, 2] : QByteArray) ++ [3, 4, 5]).length
    ∧ (QtMonkeyAppCtrl.monkeyAppNewOutput (fun _ => (3, [.onScriptEnd])) id [3, 4, 5]
        { jsonFromMonkey := [1, 2], killed := false, emitted := [], stdinBytes := [],
          writeLog := [] }).jsonFromMonkey = [4, 5] := by
  refine ⟨by decide, ?_⟩
  exact (monkeyAppNewOutput_keeps_unconsumed (fun _ => (3, [.onScriptEnd])) id [3, 4, 5]
    { jsonFromMonkey := [1, 2], killed := false, emitted := [], stdinBytes := [],
      writeLog := [] } (by decide)).1
/-! ## Controller: the write loop -/

theorem writeLoop_neg (T_ : String → QString) (results : Nat → Int) (data : QByteArray)
    (fuel i : Nat) (sentBytes : Int) (c : QtMonkeyAppCtrl) (h : results i < 0) :
    writeLoop T_ results data (fuel + 1) i sentBytes c
      = (.failed, { c with
          writeLog := c.writeLog ++ [⟨sentBytes, data.length - sentBytes, results i⟩],
          emitted := c.emitted ++ [.criticalError (T_ "Can not send data to application")] }) := by
  simp [writeLoop, h]

theorem writeLoop_more (T_ : String → QString) (results : Nat → Int) (data : QByteArray)
    (fuel i : Nat) (sentBytes : Int) (c : QtMonkeyAppCtrl) (h : ¬ results i < 0)
    (hmore : sentBytes + results i < data.length) :
    writeLoop T_ results data (fuel + 1) i sentBytes c
      = writeLoop T_ results data fuel (i + 1) (sentBytes + results i)
          { c with
            writeLog := c.writeLog ++ [⟨sentBytes, data.length - sentBytes, results i⟩],
            stdinBytes := c.stdinBytes ++ acceptedChunk data sentBytes (results i) } := by
  simp [writeLoop, h, hmore]

theorem writeLoop_done (T_ : String → QString) (results : Nat → Int) (data : QByteArray)
    (fuel i : Nat) (sentBytes : Int) (c : QtMonkeyAppCtrl) (h : ¬ results i < 0)
    (hdone : ¬ sentBytes + results i < data.length) :
    writeLoop T_ results data (fuel + 1) i sentBytes c
      = (.completed, { c with
          writeLog := c.writeLog ++ [⟨sentBytes, data.length - sentBytes, results i⟩],
          stdinBytes := c.stdinBytes ++ acceptedChunk data sentBytes (results i) }) := by
  simp [writeLoop, h, hdone]

/-- What the write loop does, whatever the device answers: the calls it adds
to the trace carry the device's answers in order; a negative answer ends the
loop at once with one `criticalError`; otherwise no signal is emitted. -/
theorem writeLoop_trace (T_ : String → QString) (results : Nat → Int) (data : QByteArray)
    (fuel : Nat) : ∀ (i : Nat) (sentBytes : Int) (c : QtMonkeyAppCtrl),
    ∃ log : List WriteCall,
      (writeLoop T_ results data fuel i sentBytes c).2.writeLog = c.writeLog ++ log
      ∧ log.map (fun w => w.nbytes) = (List.range log.length).map (fun j => results (i + j))
      ∧ log.length ≤ fuel
      ∧ (writeLoop T_ results data fuel i sentBytes c).2.killed = c.killed
      ∧ ((writeLoop T_ results data fuel i sentBytes c).1 = .failed →
          (writeLoop T_ results data fuel i sentBytes c).2.emitted
            = c.emitted ++ [.criticalError (T_ "Can not send data to application")]
          ∧ ∃ pre w, log = pre ++ [w] ∧ w.nbytes < 0 ∧ ∀ v ∈ pre, 0 ≤ v.nbytes)
      ∧ ((writeLoop T_ results data fuel i sentBytes c).1 ≠ .failed →
          (writeLoop T_ results data fuel i sentBytes c).2.emitted = c.emitted
          ∧ ∀ v ∈ log, 0 ≤ v.nbytes)
      ∧ ((writeLoop T_ results data fuel i sentBytes c).1 = .running → log.length = fuel) := by
  induction fuel with
  | zero =>
    intro i sentBytes c
    exact ⟨[], by simp [writeLoop], by simp, by simp, by simp [writeLoop],
      by simp [writeLoop], by simp [writeLoop], by simp⟩
  | succ fuel ih =>
    intro i sentBytes c
    by_cases hneg : results i < 0
    · rw [writeLoop_neg T_ results data fuel i sentBytes c hneg]
      refine ⟨[⟨sentBytes, data.length - sentBytes, results i⟩], rfl,
        by simp [List.range_succ], by simp, rfl,
        ?_, ?_, ?_⟩
      · intro _
        exact ⟨rfl, [], _, rfl, hneg, by simp⟩
      · intro h; exact absurd rfl h
      · intro h; cases h
    · by_cases hmore : sentBytes + results i < data.length
      · rw [writeLoop_more T_ results data fuel i sentBytes c hneg hmore]
        obtain ⟨log, h1, h2, h3, h4, h5, h6, h7⟩ := ih (i + 1) (sentBytes + results i)
          { c with writeLog := c.writeLog ++ [⟨sentBytes, data.length - sentBytes, results i⟩],
                   stdinBytes := c.stdinBytes ++ acceptedChunk data sentBytes (results i) }
        refine ⟨⟨sentBytes, data.length - sentBytes, results i⟩ :: log, ?_, ?_, ?_, ?_, ?_, ?_, ?_⟩
        · simpa using h1
        · simp only [List.map_cons, List.length_cons, List.range_succ_eq_map, h2,
            List.map_map, Nat.add_zero]
          congr 1
          apply List.map_congr_left
          intro j _
          simp only [Function.comp_apply]
          congr 1
          omega
        · simp only [List.length_cons]; omega
        · simpa using h4
        · intro hf
          obtain ⟨he, pre, w, hlog, hw, hpre⟩ := h5 hf
          refine ⟨by simpa using he, ⟨sentBytes, data.length - sentBytes, results i⟩ :: pre, w,
            by simp [hlog], hw, ?_⟩
          intro v hv
          rcases List.mem_cons.mp hv with hv | hv
          · subst hv; simpa using hneg
          · exact hpre v hv
        · intro hf
          obtain ⟨he, hall⟩ := h6 hf
          refine ⟨by simpa using he, ?_⟩
          intro v hv
          rcases List.mem_cons.mp hv with hv | hv
          · subst hv; simpa using hneg
          · exact hall v hv
        · intro hr
          simp [h7 hr]
      · rw [writeLoop_done T_ results data fuel i sentBytes c hneg hmore]
        refine ⟨[⟨sentBytes, data.length - sentBytes, results i⟩], rfl,
        by simp [List.range_succ], by simp, rfl,
          ?_, ?_, ?_⟩
        · intro h; cases h
        · intro _
          refine ⟨rfl, ?_⟩
          intro v hv
          simp only [List.mem_singleton] at hv
          subst hv
          simpa using hneg
        · intro h; cases h

/-- C7: in `runScript`, the calls added to the write trace carry the device's
answers in order.  If one of them got a negative count, it is the last call
made, the function has returned from the loop, exactly one `criticalError`
("Can not send data to application") has been emitted, and the process has not
been killed; a negative answer within the iterations looked at always ends the
loop.  If no call got a negative count, no signal has been emitted. -/
theorem runScript_criticalError (createPacketFromRunScript : QString → QString → QByteArray)
    (T_ : String → QString) (results : Nat → Int) (fuel : Nat)
    (script scriptFileName : QString) (c : QtMonkeyAppCtrl) :
    ∃ log : List WriteCall,
      (QtMonkeyAppCtrl.runScript createPacketFromRunScript T_ results fuel script
          scriptFileName c).2.writeLog = c.writeLog ++ log
      ∧ log.map (fun w => w.nbytes) = (List.range log.length).map results
      ∧ (QtMonkeyAppCtrl.runScript createPacketFromRunScript T_ results fuel script
          scriptFileName c).2.killed = c.killed
      ∧ ((∃ w ∈ log, w.nbytes < 0) →
          (QtMonkeyAppCtrl.runScript createPacketFromRunScript T_ results fuel script
            scriptFileName c).1 = .failed
          ∧ (QtMonkeyAppCtrl.runScript createPacketFromRunScript T_ results fuel script
              scriptFileName c).2.emitted
            = c.emitted ++ [.criticalError (T_ "Can not send data to application")]
          ∧ ∃ pre w, log = pre ++ [w] ∧ w.nbytes < 0 ∧ ∀ v ∈ pre, 0 ≤ v.nbytes)
      ∧ ((∀ w ∈ log, 0 ≤ w.nbytes) →
          (QtMonkeyAppCtrl.runScript createPacketFromRunScript T_ results fuel script
            scriptFileName c).1 ≠ .failed
          ∧ (QtMonkeyAppCtrl.runScript createPacketFromRunScript T_ results fuel script
              scriptFileName c).2.emitted = c.emitted)
      ∧ ((∃ j, j < fuel ∧ results j < 0) →
          (QtMonkeyAppCtrl.runScript createPacketFromRunScript T_ results fuel script
            scriptFileName c).1 ≠ .running) := by
  unfold QtMonkeyAppCtrl.runScript
  simp only []
  obtain ⟨log, h1, h2, h3, h4, h5, h6, h7⟩ := writeLoop_trace T_ results
    (createPacketFromRunScript script scriptFileName ++ [10]) fuel 0 0 c
  have h2' : log.map (fun w => w.nbytes) = (List.range log.length).map results := by
    rw [h2]
    apply List.map_congr_left
    intro j _
    simp
  refine ⟨log, h1, h2', h4, ?_, ?_, ?_⟩
  · rintro ⟨w, hw, hneg⟩
    by_cases hf : (writeLoop T_ results (createPacketFromRunScript script scriptFileName ++ [10])
        fuel 0 0 c).1 = .failed
    · exact ⟨hf, h5 hf⟩
    · have := (h6 hf).2 w hw
      omega
  · intro hall
    by_cases hf : (writeLoop T_ results (createPacketFromRunScript script scriptFileName ++ [10])
        fuel 0 0 c).1 = .failed
    · obtain ⟨_, pre, w, hlog, hw, _⟩ := h5 hf
      have := hall w (by simp [hlog])
      omega
    · exact ⟨hf, (h6 hf).1⟩
  · rintro ⟨j, hj, hneg⟩ hrun
    have hlen := h7 hrun
    have hall := (h6 (by rw [hrun]; decide)).2
    have hjl : j < log.length := by omega
    have hget : (log.get ⟨j, hjl⟩).nbytes = results j := by
      have := congrArg (fun l => l.get? j) h2'
      simp only [List.get?_eq_getElem?, List.getElem?_map] at this
      rw [List.getElem?_eq_getElem hjl, List.getElem?_eq_getElem (by simpa using hjl)] at this
      simpa using this
    have := hall (log.get ⟨j, hjl⟩) (List.get_mem _ _ _)
    omega

theorem acceptedChunk_append_drop (data : QByteArray) (sent r : Int) (h0 : 0 ≤ sent)
    (hr : 0 ≤ r) :
    acceptedChunk data sent r ++ data.drop (sent + r).toNat = data.drop sent.toNat := by
  unfold acceptedChunk
  have : (sent + r).toNat = sent.toNat + r.toNat := Int.toNat_add h0 hr
  rw [this, ← List.drop_drop, List.take_append_drop]

theorem acceptedChunk_all (data : QByteArray) (sent r : Int) (h0 : 0 ≤ sent)
    (hr : (data.length : Int) ≤ sent + r) :
    acceptedChunk data sent r = data.drop sent.toNat := by
  unfold acceptedChunk
  apply List.take_of_length_le
  rw [List.length_drop]
  omega

/-- The write loop when every call made is answered with a count between 1
and the bytes requested: it ends by its loop condition within
`data.size() - sentBytes` iterations, the process has received the rest of
`data`, and each call was made at the offset reached so far, for all the bytes
that remain. -/
theorem writeLoop_flush (T_ : String → QString) (results : Nat → Int) (data : QByteArray)
    (fuel : Nat) : ∀ (i : Nat) (sentBytes : Int) (c : QtMonkeyAppCtrl),
    0 ≤ sentBytes → sentBytes < data.length → (data.length : Int) - sentBytes ≤ fuel →
    (∀ log, (writeLoop T_ results data fuel i sentBytes c).2.writeLog = c.writeLog ++ log →
      ∀ w ∈ log, 1 ≤ w.nbytes ∧ w.nbytes ≤ w.maxSize) →
    (writeLoop T_ results data fuel i sentBytes c).1 = .completed
    ∧ (writeLoop T_ results data fuel i sentBytes c).2.stdinBytes
        = c.stdinBytes ++ data.drop sentBytes.toNat
    ∧ ∃ log, (writeLoop T_ results data fuel i sentBytes c).2.writeLog = c.writeLog ++ log
        ∧ ∀ (j : Nat) (hj : j < log.length),
            (log.get ⟨j, hj⟩).offset = sentBytes + ((log.take j).map (fun w => w.nbytes)).sum
            ∧ (log.get ⟨j, hj⟩).maxSize = data.length - (log.get ⟨j, hj⟩).offset := by
  induction fuel with
  | zero =>
    intro i sentBytes c h0 hlt hfuel _
    simp only [Nat.cast_zero] at hfuel
    omega
  | succ fuel ih =>
    intro i sentBytes c h0 hlt hfuel hres
    by_cases hneg : results i < 0
    · rw [writeLoop_neg T_ results data fuel i sentBytes c hneg] at hres
      have := hres [⟨sentBytes, data.length - sentBytes, results i⟩] rfl _ (List.mem_singleton.mpr rfl)
      simp only at this
      omega
    · by_cases hmore : sentBytes + results i < data.length
      · rw [writeLoop_more T_ results data fuel i sentBytes c hneg hmore] at hres ⊢
        obtain ⟨tl, htl, -⟩ := writeLoop_trace T_ results data fuel (i + 1)
          (sentBytes + results i)
          { c with writeLog := c.writeLog ++ [⟨sentBytes, data.length - sentBytes, results i⟩],
                   stdinBytes := c.stdinBytes ++ acceptedChunk data sentBytes (results i) }
        have hall := hres (⟨sentBytes, data.length - sentBytes, results i⟩ :: tl)
          (by rw [htl]; simp)
        have hfirst := hall ⟨sentBytes, data.length - sentBytes, results i⟩
          (List.mem_cons_self _ _)
        simp only at hfirst
        obtain ⟨hc, hs, log, hlog, hoff⟩ := ih (i + 1) (sentBytes + results i)
          { c with writeLog := c.writeLog ++ [⟨sentBytes, data.length - sentBytes, results i⟩],
                   stdinBytes := c.stdinBytes ++ acceptedChunk data sentBytes (results i) }
          (by omega) hmore (by push_cast at hfuel ⊢; omega)
          (by
            intro log hlog w hw
            apply hres (⟨sentBytes, data.length - sentBytes, results i⟩ :: log)
              (by rw [hlog]; simp)
            exact List.mem_cons_of_mem _ hw)
        refine ⟨hc, ?_, ⟨sentBytes, data.length - sentBytes, results i⟩ :: log, ?_, ?_⟩
        · rw [hs]
          simp only [List.append_assoc]
          rw [acceptedChunk_append_drop data sentBytes (results i) h0 (by omega)]
        · rw [hlog]; simp
        · intro j hj
          cases j with
          | zero => simp
          | succ j =>
            have hj2 : j < log.length := by simpa using hj
            have := hoff j hj2
            simp only [List.get_eq_getElem, List.getElem_cons_succ, List.take_succ_cons,
              List.map_cons, List.sum_cons] at this ⊢
            constructor
            · rw [this.1]; ring
            · exact this.2
      · rw [writeLoop_done T_ results data fuel i sentBytes c hneg hmore] at hres ⊢
        refine ⟨rfl, ?_, [⟨sentBytes, data.length - sentBytes, results i⟩], rfl, ?_⟩
        · simp only
          rw [acceptedChunk_all data sentBytes (results i) h0 (by omega)]
        · intro j hj
          have : j = 0 := by simpa using hj
          subst this
          simp

/-- C10: when every `write` call `runScript` makes is answered with a count
between 1 and the bytes requested, the loop ends by its loop condition (within
`data.size()` iterations), no signal is emitted, the `j`-th call is made at the
offset equal to the sum of the counts accepted before it, for all the bytes
that remain, and the process has received exactly the packet bytes followed by
one `"\n"`. -/
theorem runScript_flushes_packet (createPacketFromRunScript : QString → QString → QByteArray)
    (T_ : String → QString) (results : Nat → Int) (fuel : Nat)
    (script scriptFileName : QString) (c : QtMonkeyAppCtrl)
    (hfuel : (createPacketFromRunScript script scriptFileName).length + 1 ≤ fuel)
    (hres : ∀ w ∈ (QtMonkeyAppCtrl.runScript createPacketFromRunScript T_ results fuel script
        scriptFileName c).2.writeLog.drop c.writeLog.length,
      1 ≤ w.nbytes ∧ w.nbytes ≤ w.maxSize) :
    (QtMonkeyAppCtrl.runScript createPacketFromRunScript T_ results fuel script
        scriptFileName c).1 = .completed
    ∧ (QtMonkeyAppCtrl.runScript createPacketFromRunScript T_ results fuel script
        scriptFileName c).2.stdinBytes
        = c.stdinBytes ++ (createPacketFromRunScript script scriptFileName ++ [10])
    ∧ (QtMonkeyAppCtrl.runScript createPacketFromRunScript T_ results fuel script
        scriptFileName c).2.emitted = c.emitted
    ∧ ∃ log : List WriteCall,
        (QtMonkeyAppCtrl.runScript createPacketFromRunScript T_ results fuel script
          scriptFileName c).2.writeLog = c.writeLog ++ log
        ∧ log.map (fun w => w.nbytes) = (List.range log.length).map results
        ∧ ∀ (j : Nat) (hj : j < log.length),
            (log.get ⟨j, hj⟩).offset = ((log.take j).map (fun w => w.nbytes)).sum
            ∧ (log.get ⟨j, hj⟩).maxSize
                = ((createPacketFromRunScript script scriptFileName).length + 1 : Int)
                  - (log.get ⟨j, hj⟩).offset := by
  unfold QtMonkeyAppCtrl.runScript at hres ⊢
  simp only [] at hres ⊢
  obtain ⟨tl, htl, hmap, -, -, -, h6, -⟩ := writeLoop_trace T_ results
    (createPacketFromRunScript script scriptFileName ++ [10]) fuel 0 0 c
  obtain ⟨hc, hs, log, hlog, hoff⟩ := writeLoop_flush T_ results
    (createPacketFromRunScript script scriptFileName ++ [10]) fuel 0 0 c (le_refl 0)
    (by simp) (by simp; omega)
    (by
      intro log hlog w hw
      apply hres
      rw [hlog, List.drop_left]
      exact hw)
  have heq : tl = log := List.append_cancel_left (htl.symm.trans hlog)
  subst heq
  refine ⟨hc, ?_, (h6 (by rw [hc]; decide)).1, tl, hlog, ?_, ?_⟩
  · simpa using hs
  · rw [hmap]
    apply List.map_congr_left
    intro j _
    simp
  · intro j hj
    have := hoff j hj
    constructor
    · rw [this.1]; simp
    · rw [this.2]; simp

theorem runScript_flushes_packet_witness :
    (QtMonkeyAppCtrl.runScript (fun _ _ => [1, 2, 3]) id (fun _ => 2) 4 "Test.log(1)" "t.js"
        { jsonFromMonkey := [], killed := false, emitted := [], stdinBytes := [],
          writeLog := [] }).1 = .completed
    ∧ (QtMonkeyAppCtrl.runScript (fun _ _ => [1, 2, 3]) id (fun _ => 2) 4 "Test.log(1)" "t.js"
        { jsonFromMonkey := [], killed := false, emitted := [], stdinBytes := [],
          writeLog := [] }).2.stdinBytes = [1, 2, 3, 10] := by
  have h := runScript_flushes_packet (fun _ _ => [1, 2, 3]) id (fun _ => 2) 4 "Test.log(1)"
    "t.js" { jsonFromMonkey := [], killed := false, emitted := [], stdinBytes := [],
             writeLog := [] } (by decide) (by decide)
  exact ⟨h.1, h.2.1⟩

/-! ## The consistency invariant and the unbounded wait -/

/-- Every execution appends one trace entry carrying the event's serial number. -/
theorem exec_execLog (ev : FuncEvent) (s : Agent) :
    ∃ res, (ev.exec s).execLog = s.execLog ++ [⟨ev.serial, res⟩] := by
  unfold FuncEvent.exec
  split <;> split <;> exact ⟨_, rfl⟩

theorem exec_guiRunSem_timed (ev : FuncEvent) (s : Agent) (f : GuiFunc) (cell : Nat)
    (hb : ev.body = .timed f cell) : (ev.exec s).guiRunSem = s.guiRunSem := by
  unfold FuncEvent.exec
  rw [hb]
  simp only []
  split <;> rfl

theorem deliver_posted_subset (s : Agent) : ∀ e ∈ s.deliver.posted, e ∈ s.posted := by
  intro e he
  by_cases hh : s.guiHung = true
  · rwa [deliver_hung s hh] at he
  · rw [deliver_posted s (by simpa using hh)] at he
    exact List.mem_of_mem_tail he

theorem deliver_execLog (s : Agent) :
    ∃ recs, s.deliver.execLog = s.execLog ++ recs
      ∧ ∀ r ∈ recs, ∃ e ∈ s.posted, e.serial = r.serial := by
  by_cases hh : s.guiHung = true
  · rw [deliver_hung s hh]; exact ⟨[], by simp, by simp⟩
  · cases hp : s.posted with
    | nil => rw [deliver_nil s hp]; exact ⟨[], by simp, by simp⟩
    | cons e rest =>
      rw [deliver_cons s e rest (by simpa using hh) hp]
      split
      · exact ⟨[], by simp, by simp⟩
      · obtain ⟨res, hres⟩ := exec_execLog e { s with posted := rest }
        refine ⟨[⟨e.serial, res⟩], hres, ?_⟩
        intro r hr
        simp only [List.mem_singleton] at hr
        subst hr
        exact ⟨e, List.mem_cons_self _ _, rfl⟩

theorem deliver_execsOf (n : Nat) (s : Agent) (hn : ∀ e ∈ s.posted, e.serial ≠ n) :
    s.deliver.execsOf n = s.execsOf n := by
  obtain ⟨recs, h1, h2⟩ := deliver_execLog s
  unfold Agent.execsOf
  rw [h1, List.filter_append]
  have : recs.filter (fun r => r.serial = n) = [] := by
    rw [List.filter_eq_nil_iff]
    intro r hr
    obtain ⟨e, he, hes⟩ := h2 r hr
    have := hn e he
    simpa [← hes] using this
  rw [this, List.append_nil]

theorem iterate_deliver_execsOf (n : Nat) (k : Nat) (s : Agent)
    (hn : ∀ e ∈ s.posted, e.serial ≠ n) :
    (Agent.deliver^[k] s).execsOf n = s.execsOf n := by
  induction k generalizing s with
  | zero => rfl
  | succ k ih =>
    rw [Function.iterate_succ_apply, ih s.deliver, deliver_execsOf n s hn]
    intro e he
    exact hn e (deliver_posted_subset s e he)

theorem deliver_consistent (s : Agent) (h : s.Consistent) : s.deliver.Consistent := by
  by_cases hh : s.guiHung = true
  · rwa [deliver_hung s hh]
  · cases hp : s.posted with
    | nil => rwa [deliver_nil s hp]
    | cons e rest =>
      obtain ⟨h1, h2, h3, h4, h5⟩ := h
      have hsub : ∀ x ∈ rest, x ∈ s.posted := fun x hx => hp ▸ List.mem_cons_of_mem _ hx
      have hbase : Agent.Consistent { s with posted := rest } :=
        ⟨h1, fun x hx => h2 x (hsub x hx), fun x hx => h3 x (hsub x hx), h4,
          fun x hx => h5 x (hsub x hx)⟩
      rw [deliver_cons s e rest (by simpa using hh) hp]
      split
      · exact hbase
      · rename_i hm
        have hm2 : e.etype = s.eventType := not_not.mp hm
        have he : e ∈ s.posted := hp ▸ List.mem_cons_self _ _
        obtain ⟨res, hres⟩ := exec_execLog e { s with posted := rest }
        have hfr := exec_frame e { s with posted := rest }
        have hsem : (e.exec { s with posted := rest }).guiRunSem = s.guiRunSem := by
          cases hb : e.body with
          | sync f => exact absurd hb (h2 e he hm2 f)
          | timed f c => exact exec_guiRunSem_timed e _ f c hb
        refine ⟨by rw [hsem]; exact h1, ?_, ?_, ?_, ?_⟩
        · intro x hx hxt
          rw [hfr.2.2.2.1] at hx
          rw [hfr.2.1] at hxt
          exact h2 x (hsub x hx) hxt
        · intro x hx
          rw [hfr.2.2.2.1] at hx
          rw [hfr.2.2.2.2.1]
          exact h3 x (hsub x hx)
        · intro r hr
          rw [hres] at hr
          rw [hfr.2.2.2.2.1]
          rcases List.mem_append.mp hr with hr | hr
          · exact h4 r hr
          · simp only [List.mem_singleton] at hr
            subst hr
            exact h3 e he
        · intro x hx f c hb
          rw [hfr.2.2.2.1] at hx
          rw [hfr.2.2.2.2.2.1]
          exact h5 x (hsub x hx) f c hb

theorem deliver_guiRunSem (s : Agent)
    (h : ∀ e ∈ s.posted, e.etype = s.eventType → ∀ f, e.body ≠ .sync f) :
    s.deliver.guiRunSem = s.guiRunSem := by
  by_cases hh : s.guiHung = true
  · rw [deliver_hung s hh]
  · cases hp : s.posted with
    | nil => rw [deliver_nil s hp]
    | cons e rest =>
      rw [deliver_cons s e rest (by simpa using hh) hp]
      split
      · rfl
      · rename_i hm
        cases hb : e.body with
        | sync f => exact absurd hb (h e (hp ▸ List.mem_cons_self _ _) (not_not.mp hm) f)
        | timed f c => exact exec_guiRunSem_timed e _ f c hb

theorem acquireGuiRunSem_hung (n : Nat) (s : Agent) (hh : s.guiHung = true)
    (hsem : s.guiRunSem = 0) : Agent.acquireGuiRunSem n s = (false, s) := by
  induction n with
  | zero => simp [Agent.acquireGuiRunSem, hsem]
  | succ n ih => rw [acquireGuiRunSem_of_zero n s hsem, deliver_hung s hh, ih]

/-- The unbounded wait after posting the closure `ev` of `runCodeInGuiThreadSync`
behind the pending events `q`: it ends only after the GUI thread has gone
through `q` and has run the posted function to its end; the state then holds
the function's result and one more trace entry. -/
theorem acquireGuiRunSem_sync (f : GuiFunc) (ev : FuncEvent) (q : List FuncEvent) :
    ∀ s0 : Agent, s0.posted = q → s0.guiRunSem = 0 →
      (∀ e ∈ q, e.etype = s0.eventType → ∀ f2, e.body ≠ .sync f2) →
      ev.etype = s0.eventType → ev.body = .sync f →
      ∀ s2, Agent.acquireGuiRunSem (q.length + 1) { s0 with posted := s0.posted ++ [ev] }
          = (true, s2) →
        (Agent.deliver^[q.length] s0).guiHung = false
        ∧ ∃ r g, f (Agent.deliver^[q.length] s0).gui = some (r, g)
          ∧ s2 = { (Agent.deliver^[q.length] s0) with
                    posted := [], gui := g, res := r, guiRunSem := 0,
                    execLog := (Agent.deliver^[q.length] s0).execLog ++ [⟨ev.serial, some r⟩] } := by
  induction q with
  | nil =>
    intro s0 hp hsem _ het hb s2 hacq
    simp only [List.length_nil, Function.iterate_zero, id_eq, Nat.zero_add] at hacq ⊢
    rw [acquireGuiRunSem_of_zero 0 _ (by simpa using hsem)] at hacq
    by_cases hh : s0.guiHung = true
    · rw [deliver_hung _ (by simpa using hh)] at hacq
      simp [Agent.acquireGuiRunSem, hsem] at hacq
    · have hh2 : s0.guiHung = false := by simpa using hh
      rw [deliver_cons _ ev [] (by simpa using hh2) (by simp [hp]),
        if_neg (not_not.mpr (by simpa using het))] at hacq
      refine ⟨hh2, ?_⟩
      cases hf : f s0.gui with
      | none =>
        rw [exec_sync_none ev _ f hb (by simpa using hf)] at hacq
        simp [Agent.acquireGuiRunSem, hsem] at hacq
      | some rg =>
        obtain ⟨r, g⟩ := rg
        rw [exec_sync_some ev _ f r g hb (by simpa using hf)] at hacq
        simp only [Agent.acquireGuiRunSem, hsem, Nat.zero_add, Nat.lt_one_iff, if_true,
          Nat.sub_self, Prod.mk.injEq, true_and, zero_lt_one] at hacq
        exact ⟨r, g, rfl, hacq.symm⟩
  | cons e rest ih =>
    intro s0 hp hsem hq het hb s2 hacq
    rw [List.length_cons, acquireGuiRunSem_of_zero _ _ (by simpa using hsem)] at hacq
    by_cases hh : s0.guiHung = true
    · rw [deliver_hung _ (by simpa using hh),
        acquireGuiRunSem_hung _ _ (by simpa using hh) (by simpa using hsem)] at hacq
      simp at hacq
    · have hh2 : s0.guiHung = false := by simpa using hh
      rw [deliver_append s0 ev (by simp [hp])] at hacq
      have hdp : s0.deliver.posted = rest := by rw [deliver_posted s0 hh2, hp]; rfl
      have hsub : ∀ x ∈ rest, x ∈ e :: rest := fun x hx => List.mem_cons_of_mem _ hx
      have hde : s0.deliver.eventType = s0.eventType := (deliver_frame s0).2.1
      have := ih s0.deliver hdp
        (by rw [deliver_guiRunSem s0 (by rw [hp]; exact hq)]; exact hsem)
        (by intro x hx; rw [hde]; exact hq x (hsub x hx))
        (by rw [hde]; exact het) hb s2 hacq
      rw [List.length_cons, Function.iterate_succ_apply]
      exact this

theorem iterate_deliver_consistent (k : Nat) (s : Agent) (h : s.Consistent) :
    (Agent.deliver^[k] s).Consistent := by
  induction k generalizing s with
  | zero => exact h
  | succ k ih =>
    rw [Function.iterate_succ_apply]
    exact ih _ (deliver_consistent s h)

theorem iterate_deliver_frame (k : Nat) (s : Agent) :
    (Agent.deliver^[k] s).sent = s.sent ∧ (Agent.deliver^[k] s).eventType = s.eventType
    ∧ (Agent.deliver^[k] s).threadFinished = s.threadFinished
    ∧ (Agent.deliver^[k] s).postCount = s.postCount
    ∧ (Agent.deliver^[k] s).nextCell = s.nextCell
    ∧ (Agent.deliver^[k] s).tryAcquireLog = s.tryAcquireLog := by
  induction k generalizing s with
  | zero => simp
  | succ k ih =>
    rw [Function.iterate_succ_apply]
    obtain ⟨a1, a2, a3, a4, a5, a6⟩ := ih s.deliver
    obtain ⟨b1, b2, b3, b4, b5, b6⟩ := deliver_frame s
    exact ⟨a1.trans b1, a2.trans b2, a3.trans b3, a4.trans b4, a5.trans b5, a6.trans b6⟩

/-- What a returned `runCodeInGuiThreadSync(func)` call implies, from a
consistent state. -/
theorem runCodeInGuiThreadSync_returned (func : GuiFunc) (s : Agent) (hc : s.Consistent)
    (r : QString) (s' : Agent)
    (hret : Agent.runCodeInGuiThreadSync .agentThread func s = .returned r s') :
    s.afterPending.guiHung = false
    ∧ func s.afterPending.gui = some (r, s'.gui)
    ∧ s'.execsOf s.postCount = [⟨s.postCount, some r⟩]
    ∧ s'.postCount = s.postCount + 1
    ∧ s'.sent = s.sent
    ∧ s'.Consistent := by
  unfold Agent.afterPending
  rw [runCodeInGuiThreadSync_agentThread] at hret
  obtain ⟨h1, h2, h3, h4, h5⟩ := hc
  have hc0 : Agent.Consistent { s with res := "", postCount := s.postCount + 1 } :=
    ⟨h1, h2, fun e he => Nat.lt_succ_of_lt (h3 e he), fun e he => Nat.lt_succ_of_lt (h4 e he),
      h5⟩
  have hq : GuiEq { s with res := "", postCount := s.postCount + 1 } s := ⟨rfl, rfl, rfl, rfl⟩
  have hi := iterate_deliver_guiEq s.posted.length _ _ hq
  have hck := iterate_deliver_consistent s.posted.length _ hc0
  have hfr := iterate_deliver_frame s.posted.length
    { s with res := "", postCount := s.postCount + 1 }
  have hex := iterate_deliver_execsOf s.postCount s.posted.length
    { s with res := "", postCount := s.postCount + 1 }
    (fun e he => Nat.ne_of_lt (h3 e he))
  have hnil : Agent.execsOf s.postCount { s with res := "", postCount := s.postCount + 1 }
      = [] := by
    unfold Agent.execsOf
    rw [List.filter_eq_nil_iff]
    intro x hx
    have := h4 x hx
    simp only [decide_eq_true_eq]
    omega
  rw [hnil] at hex
  cases hacq : Agent.acquireGuiRunSem (s.posted.length + 1)
      (Agent.postEvent s.eventType (.sync func) { s with res := "" }) with
  | mk b s2 =>
    rw [hacq] at hret
    cases b with
    | false => cases hret
    | true =>
      obtain ⟨hh, r2, g, hf, hs2⟩ := acquireGuiRunSem_sync func
        ⟨s.eventType, s.postCount, .sync func⟩ s.posted
        { s with res := "", postCount := s.postCount + 1 } rfl h1 h2 rfl rfl s2 hacq
      subst hs2
      cases hret
      simp only []
      refine ⟨by rw [← hi.2.1]; exact hh, by rw [← hi.1]; exact hf, ?_, hfr.2.2.2.1, hfr.1, ?_⟩
      · unfold Agent.execsOf at hex ⊢
        simp only [List.filter_append, hex, List.nil_append]
        simp
      · refine ⟨rfl, by simp, by simp, ?_, by simp⟩
        intro x hx
        simp only [List.mem_append, List.mem_singleton] at hx
        rcases hx with hx | hx
        · exact hck.2.2.2.1 x hx
        · subst hx
          simp only [hfr.2.2.2.1]
          omega

/-- C4: from a consistent state, when `runCodeInGuiThreadSync(func)` returns,
the GUI thread has gone through the events pending before the call without
getting stuck (`afterPending`), `func`, run right after them, has returned the
very string the call returns, the event posted by the call has been executed exactly once, and
the state is consistent again.  The call does return once the GUI thread has
got that far.  `customEvent` leaves the agent untouched when the event's type
is not the registered `eventType_`. -/
theorem runCodeInGuiThreadSync_returns_func_result (func : GuiFunc) (s : Agent)
    (hc : s.Consistent) :
    (∀ r s', Agent.runCodeInGuiThreadSync .agentThread func s = .returned r s' →
      s.afterPending.guiHung = false
      ∧ func s.afterPending.gui = some (r, s'.gui)
      ∧ s'.execsOf s.postCount = [⟨s.postCount, some r⟩]
      ∧ s'.postCount = s.postCount + 1
      ∧ s'.Consistent)
    ∧ (Agent.GuiCompletes func s →
        ∃ r s', Agent.runCodeInGuiThreadSync .agentThread func s = .returned r s')
    ∧ (∀ (event : FuncEvent) (t : Agent), event.etype ≠ t.eventType →
        Agent.customEvent .guiThread event t = some t) := by
  refine ⟨?_, runCodeInGuiThreadSync_progress func s, ?_⟩
  · intro r s' hret
    obtain ⟨a, b, c, d, -, e⟩ := runCodeInGuiThreadSync_returned func s hc r s' hret
    exact ⟨a, b, c, d, e⟩
  · intro event t hne
    rw [customEvent_guiThread, if_pos hne]

theorem runCodeInGuiThreadSync_returns_func_result_witness :
    sampleAgent.Consistent
    ∧ ∃ s', Agent.runCodeInGuiThreadSync .agentThread (fun g => some ("pong", g)) sampleAgent
          = .returned "pong" s'
        ∧ s'.execsOf 0 = [⟨0, some "pong"⟩] := by
  have hc : sampleAgent.Consistent := by
    simp [Agent.Consistent, sampleAgent, Agent.create]
  have h := runCodeInGuiThreadSync_returns_func_result (fun g => some ("pong", g)) sampleAgent hc
  obtain ⟨r, s', hret⟩ := h.2.1 ⟨rfl, rfl⟩
  obtain ⟨-, hf, hex, -, -⟩ := h.1 r s' hret
  have hr : r = "pong" := by
    simp only [Option.some.injEq, Prod.mk.injEq] at hf
    exact hf.1.symm
  subst hr
  exact ⟨hc, s', hret, hex⟩

/-! ## The settle phase -/

theorem settleLoop_spec (startTime : Int) (fuel : Nat) :
    ∀ g g2 : Gui, settleLoop startTime fuel g = some g2 →
      ∃ m, m < fuel ∧ g2.clock = g.clock ∧ g2.reads = g.reads + m + 1
        ∧ g2.pumps = g.pumps ++ List.replicate (m + 1) ⟨.AllEvents, 10⟩
        ∧ ¬ durationCastMs (g.clock (g.reads + m) - startTime) < 300
        ∧ ∀ j, j < m → durationCastMs (g.clock (g.reads + j) - startTime) < 300 := by
  induction fuel with
  | zero => intro g g2 h; simp [settleLoop] at h
  | succ fuel ih =>
    intro g g2 h
    unfold settleLoop at h
    simp only [Gui.now, Gui.processEvents] at h
    by_cases hlt : durationCastMs (g.clock g.reads - startTime) < 300
    · rw [if_pos hlt] at h
      obtain ⟨m, hm, hclock, hreads, hpumps, hexit, hbefore⟩ := ih _ g2 h
      refine ⟨m + 1, by omega, hclock, by rw [hreads]; simp only []; omega, ?_, ?_, ?_⟩
      · rw [hpumps]
        simp only [List.append_assoc, List.singleton_append]
        rw [List.replicate_succ (n := m + 1)]
      · simp only [] at hexit
        rw [show g.reads + (m + 1) = g.reads + 1 + m by omega]
        exact hexit
      · intro j hj
        cases j with
        | zero => simpa using hlt
        | succ j =>
          have := hbefore j (by omega)
          simp only [] at this
          rw [show g.reads + (j + 1) = g.reads + 1 + j by omega]
          exact this
    · rw [if_neg hlt] at h
      simp only [Option.some.injEq] at h
      subst h
      exact ⟨0, by omega, rfl, rfl, by simp, by simpa using hlt, by intro j hj; omega⟩

theorem settleLoop_progress (startTime : Int) (fuel : Nat) :
    ∀ (g : Gui) (m : Nat), m < fuel →
      ¬ durationCastMs (g.clock (g.reads + m) - startTime) < 300 →
      (settleLoop startTime fuel g).isSome = true := by
  induction fuel with
  | zero => intro g m hm; omega
  | succ fuel ih =>
    intro g m hm hexit
    unfold settleLoop
    simp only [Gui.now, Gui.processEvents]
    by_cases hlt : durationCastMs (g.clock g.reads - startTime) < 300
    · rw [if_pos hlt]
      cases m with
      | zero => exact absurd hlt (by simpa using hexit)
      | succ m =>
        apply ih _ m (by omega)
        simp only []
        rw [show g.reads + 1 + m = g.reads + (m + 1) by omega]
        exact hexit
    · rw [if_neg hlt]
      rfl

theorem durationCastMs_ge (d : Int) (h : 300 ≤ durationCastMs d) : 300000000 ≤ d := by
  unfold durationCastMs at h
  by_cases hd : 0 ≤ d
  · rw [Int.tdiv_eq_ediv hd (by omega)] at h
    omega
  · have : Int.tdiv d 1000000 ≤ 0 := by
      have h1 : Int.tdiv (-d) 1000000 = -(Int.tdiv d 1000000) := Int.neg_tdiv d 1000000
      have h2 : 0 ≤ Int.tdiv (-d) 1000000 := Int.tdiv_nonneg (by omega) (by omega)
      omega
    omega

/-- The settle function, taken alone. -/
theorem settle_spec (fuel : Nat) (g : Gui) (r : QString) (g2 : Gui)
    (h : settle fuel g = some (r, g2)) :
    r = "" ∧ ∃ k, 1 ≤ k ∧ k ≤ fuel
      ∧ g2.pumps = g.pumps ++ List.replicate k ⟨.AllEvents, 10⟩
      ∧ g2.reads = g.reads + 1 + k ∧ g2.clock = g.clock
      ∧ 300 ≤ durationCastMs (g.clock (g.reads + k) - g.clock g.reads)
      ∧ 300000000 ≤ g.clock (g.reads + k) - g.clock g.reads
      ∧ (∀ j, 1 ≤ j → j < k →
          durationCastMs (g.clock (g.reads + j) - g.clock g.reads) < 300)
      ∧ (Monotone g.clock → ∀ j, g.reads + k ≤ j → 300000000 ≤ g.clock j - g.clock g.reads) := by
  unfold settle at h
  simp only [Gui.now, Option.map_eq_some'] at h
  obtain ⟨g3, hloop, heq⟩ := h
  simp only [Prod.mk.injEq] at heq
  obtain ⟨hr, hg⟩ := heq
  subst hg
  obtain ⟨m, hm, hclock, hreads, hpumps, hexit, hbefore⟩ := settleLoop_spec _ fuel _ g3 hloop
  simp only [] at hclock hreads hpumps hexit hbefore
  have hexit2 : 300 ≤ durationCastMs (g.clock (g.reads + (m + 1)) - g.clock g.reads) := by
    rw [show g.reads + (m + 1) = g.reads + 1 + m by omega]
    omega
  refine ⟨hr.symm, m + 1, by omega, by omega, hpumps, by rw [hreads]; omega, hclock, hexit2,
    durationCastMs_ge _ hexit2, ?_, ?_⟩
  · intro j hj1 hj2
    have := hbefore (j - 1) (by omega)
    rw [show g.reads + 1 + (j - 1) = g.reads + j by omega] at this
    exact this
  · intro hmono j hj
    have h1 := durationCastMs_ge _ hexit2
    have h2 : g.clock (g.reads + (m + 1)) ≤ g.clock j := hmono hj
    omega

/-- C8: the settle function, whenever it returns, has called
`processEvents(AllEvents, 10)` `k ≥ 1` times and nothing else, and has ended at
the `k`-th clock reading after its start, the first one showing at least
300 ms elapsed; under a non-decreasing clock every later reading shows at
least 300 ms too.  On a live agent thread with the empty error text,
`onRunScriptCommand` sends `ScriptEnd`, its only packet, after the call that
runs the settle function has returned; from a consistent state the settle
function has then run to its end on the GUI thread, after the events that were
pending (`afterPending`).  The handler does return once the GUI thread has got
through the pending events and the clock has reached start + 300 ms within
`fuel` readings. -/
theorem onRunScriptCommand_settle_phase {Script : Type}
    (runScript : Script → Agent → QString × Agent) (fuel : Nat) (script : Script) (s : Agent)
    (hlive : s.threadFinished = false) (herr : (runScript script s).1 = "") :
    (∀ (g : Gui) (r : QString) (g2 : Gui), settle fuel g = some (r, g2) →
      r = "" ∧ ∃ k, 1 ≤ k
        ∧ g2.pumps = g.pumps ++ List.replicate k ⟨.AllEvents, 10⟩
        ∧ 300 ≤ durationCastMs (g.clock (g.reads + k) - g.clock g.reads)
        ∧ (∀ j, 1 ≤ j → j < k → durationCastMs (g.clock (g.reads + j) - g.clock g.reads) < 300)
        ∧ (Monotone g.clock →
            ∀ j, g.reads + k ≤ j → 300000000 ≤ g.clock j - g.clock g.reads))
    ∧ (∀ s', Agent.onRunScriptCommand runScript fuel .agentThread script s = .returned () s' →
        ∃ s2 : Agent, s' = Agent.sendCommand .ScriptEnd "" s2
          ∧ s2.sent = (runScript script s).2.sent
          ∧ ((runScript script s).2.Consistent →
              settle fuel (runScript script s).2.afterPending.gui = some ("", s2.gui)))
    ∧ ((runScript script s).2.afterPending.guiHung = false →
        ∀ k, 1 ≤ k → k ≤ fuel →
          300 ≤ durationCastMs
            ((runScript script s).2.afterPending.gui.clock
                ((runScript script s).2.afterPending.gui.reads + k)
              - (runScript script s).2.afterPending.gui.clock
                  (runScript script s).2.afterPending.gui.reads) →
          ∃ s', Agent.onRunScriptCommand runScript fuel .agentThread script s = .returned () s') := by
  rw [onRunScriptCommand_ok runScript fuel script s hlive herr]
  generalize (runScript script s).2 = s1
  generalize hg0 : s1.afterPending.gui = g0
  refine ⟨?_, ?_, ?_⟩
  · intro g r g2 hset
    obtain ⟨hr, k, hk1, -, hpumps, -, -, hexit, -, hbefore, hmono⟩ := settle_spec fuel g r g2 hset
    exact ⟨hr, k, hk1, hpumps, hexit, hbefore, hmono⟩
  · intro s' hs'
    cases hrun : Agent.runCodeInGuiThreadSync .agentThread (settle fuel) s1 with
    | assertFailed => rw [hrun] at hs'; cases hs'
    | blocked s2 => rw [hrun] at hs'; cases hs'
    | returned r s2 =>
      have hsent := (runCodeInGuiThreadSync_sent (settle fuel) s1).1 r s2 hrun
      rw [hrun] at hs'
      cases hs'
      refine ⟨s2, rfl, hsent, ?_⟩
      intro hc
      obtain ⟨-, hf, -⟩ := runCodeInGuiThreadSync_returned (settle fuel) s1 hc r s2 hrun
      rw [hg0] at hf
      have hr := (settle_spec fuel g0 r _ hf).1
      rw [hf, hr]
  · intro hh k hk1 hk2 hexit
    have hsome : (settle fuel g0).isSome = true := by
      unfold settle
      simp only [Gui.now, Option.isSome_map']
      apply settleLoop_progress _ fuel _ (k - 1) (by omega)
      simp only []
      rw [show g0.reads + 1 + (k - 1) = g0.reads + k by omega]
      omega
    obtain ⟨r, s2, hrun⟩ := runCodeInGuiThreadSync_progress (settle fuel) s1
      ⟨hh, by rw [hg0]; exact hsome⟩
    rw [hrun]
    exact ⟨_, rfl⟩

theorem onRunScriptCommand_settle_phase_witness :
    sampleAgent.threadFinished = false
    ∧ ∃ s', Agent.onRunScriptCommand (fun (_ : Unit) s => ("", s)) 5 .agentThread () sampleAgent
          = .returned () s'
        ∧ ∃ k, 1 ≤ k ∧ s'.gui.pumps = List.replicate k ⟨.AllEvents, 10⟩ := by
  have hc : sampleAgent.Consistent := by
    simp [Agent.Consistent, sampleAgent, Agent.create]
  have h := onRunScriptCommand_settle_phase (fun (_ : Unit) s => ("", s)) 5 () sampleAgent
    rfl rfl
  obtain ⟨s', hs'⟩ := h.2.2 rfl 3 (by decide) (by decide) (by decide)
  obtain ⟨s2, hs2, -, hset⟩ := h.2.1 s' hs'
  obtain ⟨-, k, hk, hpumps, -⟩ := h.1 _ _ _ (hset hc)
  refine ⟨rfl, s', hs', k, hk, ?_⟩
  rw [hs2]
  exact hpumps

/-! ## The bounded wait: result -/

theorem push_ne_empty (s : QString) (c : Char) : s.push c ≠ "" := by
  intro h
  have := congrArg String.data h
  simp at this

/-- The loop invariant of `splitCommandLine`: no empty string in `list`, a
non-empty `arg` in state `Arg`, an empty one in state `Idle`. -/
theorem splitStep_inv (isSpace : Char → Bool) (l : SplitLoop) (c : Char)
    (h : (∀ a ∈ l.list, a ≠ "") ∧ (l.state = .Arg → l.arg ≠ "") ∧ (l.state = .Idle → l.arg = "")) :
    (∀ a ∈ (splitStep isSpace l c).list, a ≠ "")
    ∧ ((splitStep isSpace l c).state = .Arg → (splitStep isSpace l c).arg ≠ "")
    ∧ ((splitStep isSpace l c).state = .Idle → (splitStep isSpace l c).arg = "") := by
  obtain ⟨h1, h2, h3⟩ := h
  unfold splitStep
  split
  · exact ⟨h1, h2, h3⟩
  · cases hs : l.state with
    | Idle =>
      simp only []
      split
      · exact ⟨h1, by simp, by simp⟩
      · split
        · exact ⟨h1, fun _ => push_ne_empty _ _, by simp⟩
        · exact ⟨h1, by simp [hs], fun _ => h3 hs⟩
    | Arg =>
      simp only []
      split
      · exact ⟨h1, by simp, by simp⟩
      · split
        · exact ⟨h1, fun _ => push_ne_empty _ _, by simp [hs]⟩
        · refine ⟨?_, by simp, fun _ => rfl⟩
          intro a ha
          simp only [List.mem_append, List.mem_singleton] at ha
          rcases ha with ha | ha
          · exact h1 a ha
          · rw [ha]; exact h2 hs
    | QuotedArg =>
      simp only []
      split
      · by_cases he : l.arg.isEmpty = true
        · refine ⟨h1, by simp [he], fun _ => ?_⟩
          exact (String.isEmpty_iff _).mp he
        · refine ⟨h1, fun _ => ?_, by simp [he]⟩
          intro hemp
          exact he ((String.isEmpty_iff _).mpr hemp)
      · exact ⟨h1, fun _ => push_ne_empty _ _, by simp [hs]⟩

theorem foldl_splitStep_inv (isSpace : Char → Bool) (cs : List Char) :
    ∀ l : SplitLoop,
      ((∀ a ∈ l.list, a ≠ "") ∧ (l.state = .Arg → l.arg ≠ "") ∧ (l.state = .Idle → l.arg = "")) →
      (∀ a ∈ (cs.foldl (splitStep isSpace) l).list, a ≠ "")
      ∧ ((cs.foldl (splitStep isSpace) l).state = .Arg → (cs.foldl (splitStep isSpace) l).arg ≠ "")
      ∧ ((cs.foldl (splitStep isSpace) l).state = .Idle
          → (cs.foldl (splitStep isSpace) l).arg = "") := by
  induction cs with
  | nil => intro l h; exact h
  | cons c cs ih =>
    intro l h
    rw [List.foldl_cons]
    exact ih _ (splitStep_inv isSpace l c h)

theorem splitLoop_inv (isSpace : Char → Bool) (cs : List Char) :
    (∀ a ∈ (splitLoop isSpace cs).list, a ≠ "")
    ∧ ((splitLoop isSpace cs).state = .Arg → (splitLoop isSpace cs).arg ≠ "")
    ∧ ((splitLoop isSpace cs).state = .Idle → (splitLoop isSpace cs).arg = "") :=
  foldl_splitStep_inv isSpace cs _ ⟨by simp, by simp, fun _ => rfl⟩

/-- C11: every element of the list `splitCommandLine` returns is a non-empty
string, for every input and every whitespace test; after any number of
characters, the accumulated argument is non-empty whenever the state is `Arg`;
and the input made of two double quotes yields the empty list. -/
theorem splitCommandLine_elements_nonempty (isSpace : Char → Bool) (cmdLine : QString) :
    (∀ a ∈ splitCommandLine isSpace cmdLine, a ≠ "" ∧ 0 < a.length)
    ∧ (∀ cs : List Char,
        (splitLoop isSpace cs).state = .Arg → (splitLoop isSpace cs).arg ≠ "")
    ∧ splitCommandLine isSpace (String.mk [quoteChar, quoteChar]) = [] := by
  refine ⟨?_, fun cs => (splitLoop_inv isSpace cs).2.1, ?_⟩
  · have hne : ∀ a ∈ splitCommandLine isSpace cmdLine, a ≠ "" := by
      intro a ha
      unfold splitCommandLine splitFinish at ha
      obtain ⟨h1, -, -⟩ := splitLoop_inv isSpace cmdLine.toList
      split at ha
      · rename_i hemp
        simp only [List.mem_append, List.mem_singleton] at ha
        rcases ha with ha | ha
        · exact h1 a ha
        · rw [ha]
          intro he
          rw [he, (String.isEmpty_iff "").mpr rfl] at hemp
          simp at hemp
      · exact h1 a ha
    intro a ha
    refine ⟨hne a ha, ?_⟩
    have h := hne a ha
    rw [Nat.pos_iff_ne_zero]
    intro hlen
    apply h
    rw [String.ext_iff]
    exact List.length_eq_zero.mp hlen
  · rfl

theorem splitStep_nonspace (isSpace : Char → Bool) (l : SplitLoop) (c : Char)
    (hesc : l.escape = false) (hb : c ≠ backslashChar) (hq : c ≠ quoteChar)
    (hsp : isSpace c = false) (hst : l.state ≠ .QuotedArg) :
    splitStep isSpace l c
      = { list := l.list, arg := l.arg.push c, escape := false, state := .Arg } := by
  unfold splitStep
  cases hs : l.state with
  | Idle => simp [hesc, hb, hq, hsp]
  | Arg => simp [hesc, hb, hq, hsp]
  | QuotedArg => exact absurd hs hst

theorem splitStep_space_arg (isSpace : Char → Bool) (l : SplitLoop) (c : Char)
    (hesc : l.escape = false) (hb : c ≠ backslashChar) (hq : c ≠ quoteChar)
    (hsp : isSpace c = true) (hst : l.state = .Arg) :
    splitStep isSpace l c
      = { list := l.list ++ [l.arg], arg := "", escape := false, state := .Idle } := by
  unfold splitStep
  simp [hesc, hb, hq, hsp, hst]

theorem splitStep_space_idle (isSpace : Char → Bool) (l : SplitLoop) (c : Char)
    (hesc : l.escape = false) (hb : c ≠ backslashChar) (hq : c ≠ quoteChar)
    (hsp : isSpace c = true) (hst : l.state = .Idle) :
    splitStep isSpace l c = l := by
  unfold splitStep
  simp [hesc, hb, hq, hsp, hst]
  cases l
  simp_all

theorem data_isEmpty_of_ne (s : QString) (h : s ≠ "") : s.data.isEmpty = false := by
  rw [Bool.eq_false_iff]
  intro he
  apply h
  rw [String.ext_iff]
  exact List.isEmpty_iff.mp he

/-- The loop on characters that are neither quotes nor backslashes, started
between two arguments or inside an unquoted one: what is returned in the end
is `list`, then the non-empty pieces of the input between whitespace
characters, the first of them preceded by `arg`. -/
theorem foldl_splitStep_runs (isSpace : Char → Bool) (cs : List Char) :
    ∀ l : SplitLoop, l.escape = false →
      (l.state = .Idle ∧ l.arg = "" ∨ l.state = .Arg ∧ l.arg ≠ "") →
      quoteChar ∉ cs → backslashChar ∉ cs →
      splitFinish (cs.foldl (splitStep isSpace) l)
        = l.list ++ (((cs.splitOnP isSpace).modifyHead (l.arg.toList ++ ·)).filter
            fun piece => !piece.isEmpty).map String.mk := by
  induction cs with
  | nil =>
    intro l _ hst _ _
    simp only [List.foldl_nil, List.splitOnP_nil, List.modifyHead_cons, List.append_nil]
    unfold splitFinish
    rcases hst with ⟨_, harg⟩ | ⟨_, harg⟩
    · rw [harg, (String.isEmpty_iff "").mpr rfl]
      simp [String.toList]
    · have hne : l.arg.isEmpty = false := by
        rw [Bool.eq_false_iff]
        intro he
        exact harg ((String.isEmpty_iff _).mp he)
      have hne2 := data_isEmpty_of_ne l.arg harg
      simp [hne, String.toList, List.filter, hne2]
  | cons c cs ih =>
    intro l hesc hst hq hb
    have hqc : c ≠ quoteChar := fun h => hq (h ▸ List.mem_cons_self _ _)
    have hbc : c ≠ backslashChar := fun h => hb (h ▸ List.mem_cons_self _ _)
    have hq2 : quoteChar ∉ cs := fun h => hq (List.mem_cons_of_mem _ h)
    have hb2 : backslashChar ∉ cs := fun h => hb (List.mem_cons_of_mem _ h)
    rw [List.foldl_cons, List.splitOnP_cons]
    by_cases hsp : isSpace c = true
    · rw [if_pos hsp]
      rcases hst with ⟨hs, harg⟩ | ⟨hs, harg⟩
      · rw [splitStep_space_idle isSpace l c hesc hbc hqc hsp hs]
        have := ih l hesc (Or.inl ⟨hs, harg⟩) hq2 hb2
        rw [this, harg]
        obtain ⟨hd, tl, hsplit⟩ := List.exists_cons_of_ne_nil (List.splitOnP_ne_nil isSpace cs)
        rw [hsplit]
        simp [String.toList]
      · rw [splitStep_space_arg isSpace l c hesc hbc hqc hsp hs]
        have := ih { list := l.list ++ [l.arg], arg := "", escape := false, state := .Idle }
          rfl (Or.inl ⟨rfl, rfl⟩) hq2 hb2
        rw [this]
        obtain ⟨hd, tl, hsplit⟩ := List.exists_cons_of_ne_nil (List.splitOnP_ne_nil isSpace cs)
        rw [hsplit]
        have hne2 := data_isEmpty_of_ne l.arg harg
        simp [String.toList, List.filter, hne2]
    · have hsp2 : isSpace c = false := by simpa using hsp
      rw [if_neg hsp]
      have hstq : l.state ≠ .QuotedArg := by
        rcases hst with ⟨hs, _⟩ | ⟨hs, _⟩ <;> simp [hs]
      rw [splitStep_nonspace isSpace l c hesc hbc hqc hsp2 hstq]
      have := ih { list := l.list, arg := l.arg.push c, escape := false, state := .Arg }
        rfl (Or.inr ⟨rfl, push_ne_empty _ _⟩) hq2 hb2
      rw [this, List.modifyHead_modifyHead]
      congr 4
      funext piece
      simp [String.toList]

theorem intercalate_go_data (sep : String) (rest : List String) :
    ∀ acc : String, (String.intercalate.go acc sep rest).data
      = acc.data ++ (rest.map fun a => sep.data ++ a.data).flatten := by
  induction rest with
  | nil => intro acc; simp [String.intercalate.go]
  | cons a rest ih =>
    intro acc
    rw [String.intercalate.go, ih]
    simp [String.data_append, List.append_assoc]

theorem joinWithSpaces_nil : joinWithSpaces [] = "" := rfl

theorem joinWithSpaces_cons_data (a : QString) (rest : List QString) :
    (joinWithSpaces (a :: rest)).data
      = a.data ++ (rest.map fun b => Char.ofNat 32 :: b.data).flatten := by
  unfold joinWithSpaces
  rw [String.intercalate, intercalate_go_data]
  rfl

/-- The characters of a join: the first string, then a space and the join of
the others when there are others. -/
theorem joinWithSpaces_cons_cons_data (a b : QString) (rest : List QString) :
    (joinWithSpaces (a :: b :: rest)).data
      = a.data ++ Char.ofNat 32 :: (joinWithSpaces (b :: rest)).data := by
  rw [joinWithSpaces_cons_data, joinWithSpaces_cons_data]
  simp

theorem mem_joinWithSpaces (args : List QString) (c : Char)
    (h : c ∈ (joinWithSpaces args).data) : c = Char.ofNat 32 ∨ ∃ a ∈ args, c ∈ a.data := by
  induction args with
  | nil => simp [joinWithSpaces_nil] at h
  | cons a rest ih =>
    cases rest with
    | nil =>
      rw [joinWithSpaces_cons_data] at h
      simp only [List.map_nil, List.flatten_nil, List.append_nil] at h
      exact Or.inr ⟨a, List.mem_singleton.mpr rfl, h⟩
    | cons b rest =>
      rw [joinWithSpaces_cons_cons_data] at h
      simp only [List.mem_append, List.mem_cons] at h
      rcases h with h | h | h
      · exact Or.inr ⟨a, List.mem_cons_self _ _, h⟩
      · exact Or.inl h
      · rcases ih h with h2 | ⟨x, hx, hcx⟩
        · exact Or.inl h2
        · exact Or.inr ⟨x, List.mem_cons_of_mem _ hx, hcx⟩

theorem nonSpaceRuns_joinWithSpaces (isSpace : Char → Bool) (args : List QString)
    (hsp : isSpace (Char.ofNat 32) = true)
    (hargs : ∀ a ∈ args, a ≠ "" ∧ ∀ c ∈ a.data, isSpace c = false) :
    nonSpaceRuns isSpace (joinWithSpaces args).data = args := by
  induction args with
  | nil => simp [joinWithSpaces_nil, nonSpaceRuns]
  | cons a rest ih =>
    obtain ⟨hane, hasp⟩ := hargs a (List.mem_cons_self _ _)
    have hne2 := data_isEmpty_of_ne a hane
    have hnsp : ∀ x ∈ a.data, ¬ isSpace x = true := by
      intro x hx
      rw [hasp x hx]
      simp
    cases rest with
    | nil =>
      unfold nonSpaceRuns
      rw [joinWithSpaces_cons_data]
      simp only [List.map_nil, List.flatten_nil, List.append_nil]
      rw [List.splitOnP_eq_single isSpace a.data hnsp]
      simp [List.filter, hne2]
    | cons b rest =>
      have ih2 := ih (fun x hx => hargs x (List.mem_cons_of_mem _ hx))
      unfold nonSpaceRuns at ih2 ⊢
      rw [joinWithSpaces_cons_cons_data,
        List.splitOnP_first isSpace a.data hnsp (Char.ofNat 32) hsp]
      simp only [List.filter, hne2, Bool.not_false, List.map_cons]
      rw [ih2]

/-- C12: for an input without double quote and without backslash,
`splitCommandLine` returns the non-empty pieces of the input between
whitespace characters, in order (`nonSpaceRuns`), whatever the whitespace
test; hence, when the space character counts as whitespace, splitting the
join with single spaces of non-empty arguments free of whitespace, quotes and
backslashes gives the arguments back. -/
theorem splitCommandLine_eq_nonSpaceRuns (isSpace : Char → Bool) :
    (∀ cmdLine : QString, quoteChar ∉ cmdLine.toList → backslashChar ∉ cmdLine.toList →
      splitCommandLine isSpace cmdLine = nonSpaceRuns isSpace cmdLine.toList)
    ∧ (isSpace (Char.ofNat 32) = true →
        ∀ args : List QString,
          (∀ a ∈ args, a ≠ "" ∧ ∀ c ∈ a.toList,
            isSpace c = false ∧ c ≠ quoteChar ∧ c ≠ backslashChar) →
          splitCommandLine isSpace (joinWithSpaces args) = args) := by
  have part1 : ∀ cmdLine : QString, quoteChar ∉ cmdLine.toList →
      backslashChar ∉ cmdLine.toList →
      splitCommandLine isSpace cmdLine = nonSpaceRuns isSpace cmdLine.toList := by
    intro cmdLine hq hb
    unfold splitCommandLine splitLoop nonSpaceRuns
    rw [foldl_splitStep_runs isSpace cmdLine.toList _ rfl (Or.inl ⟨rfl, rfl⟩) hq hb]
    obtain ⟨hd, tl, hsplit⟩ := List.exists_cons_of_ne_nil
      (List.splitOnP_ne_nil isSpace cmdLine.toList)
    rw [hsplit]
    simp [String.toList]
  refine ⟨part1, ?_⟩
  intro hsp args hargs
  have hq : quoteChar ∉ (joinWithSpaces args).toList := by
    intro hmem
    rcases mem_joinWithSpaces args _ hmem with h | ⟨a, ha, hca⟩
    · exact absurd h (by decide)
    · exact ((hargs a ha).2 _ hca).2.1 rfl
  have hb : backslashChar ∉ (joinWithSpaces args).toList := by
    intro hmem
    rcases mem_joinWithSpaces args _ hmem with h | ⟨a, ha, hca⟩
    · exact absurd h (by decide)
    · exact ((hargs a ha).2 _ hca).2.2 rfl
  rw [part1 _ hq hb]
  exact nonSpaceRuns_joinWithSpaces isSpace args hsp
    (fun a ha => ⟨(hargs a ha).1, fun c hc => ((hargs a ha).2 c hc).1⟩)

theorem splitCommandLine_eq_nonSpaceRuns_witness :
    splitCommandLine Char.isWhitespace "  --user-app  demo\targ "
        = nonSpaceRuns Char.isWhitespace "  --user-app  demo\targ ".toList
    ∧ nonSpaceRuns Char.isWhitespace "  --user-app  demo\targ ".toList
        = ["--user-app", "demo", "arg"]
    ∧ splitCommandLine Char.isWhitespace (joinWithSpaces ["-v", "run", "x.js"])
        = ["-v", "run", "x.js"] := by
  have h := splitCommandLine_eq_nonSpaceRuns Char.isWhitespace
  exact ⟨h.1 "  --user-app  demo\targ " (by decide) (by decide), by decide,
    h.2 (by decide) ["-v", "run", "x.js"] (by decide)⟩

/-! ## The end packet -/

theorem settle_isSome_of_clock (fuel : Nat) (g : Gui) (k : Nat) (hk1 : 1 ≤ k) (hk2 : k ≤ fuel)
    (hexit : 300 ≤ durationCastMs (g.clock (g.reads + k) - g.clock g.reads)) :
    (settle fuel g).isSome = true := by
  unfold settle
  simp only [Gui.now, Option.isSome_map']
  apply settleLoop_progress _ fuel _ (k - 1) (by omega)
  simp only []
  rw [show g.reads + 1 + (k - 1) = g.reads + k by omega]
  omega

/-- C1 (counterexample): on a live agent thread, after a script run that ends
with the empty error text and leaves a never-returning function pending for
the GUI thread, `onRunScriptCommand` waits forever, whatever the bound on the
settle loop, and has sent no packet: no `ScriptEnd` is sent. -/
theorem onRunScriptCommand_stuck_gui_counterexample :
    sampleAgent.threadFinished = false
    ∧ (hangingScript () sampleAgent).1 = ""
    ∧ ∀ fuel : Nat, ∃ s',
        Agent.onRunScriptCommand hangingScript fuel .agentThread () sampleAgent = .blocked s'
        ∧ s'.sent = [] := by
  refine ⟨rfl, rfl, ?_⟩
  intro fuel
  exact ⟨_, rfl, rfl⟩

/-- C1 (amended): on a live agent thread, whenever `onRunScriptCommand`
returns it has sent, after whatever the script run left on the channel,
packets among which exactly one is a `ScriptEnd`; that packet has the empty
payload and is the last one.  The handler returns for every non-empty error
text.  For the empty error text it returns once the GUI thread has got through
the pending events and the settle function, which is the case when the GUI
thread does not get stuck in a pending event and the clock reaches start +
300 ms within `fuel` readings; until then the handler waits and has sent
nothing.  Its assertion never fails on the agent thread. -/
theorem onRunScriptCommand_one_ScriptEnd_last {Script : Type}
    (runScript : Script → Agent → QString × Agent) (fuel : Nat) (script : Script) (s : Agent)
    (hlive : s.threadFinished = false) :
    (∀ s', Agent.onRunScriptCommand runScript fuel .agentThread script s = .returned () s' →
      ∃ hp : List Packet, s'.sent = (runScript script s).2.sent ++ hp
        ∧ hp.filter (fun p => p.ptype = .ScriptEnd) = [⟨.ScriptEnd, ""⟩]
        ∧ hp.getLast? = some ⟨.ScriptEnd, ""⟩)
    ∧ ((runScript script s).1 ≠ "" ∨ Agent.GuiCompletes (settle fuel) (runScript script s).2 →
        ∃ s', Agent.onRunScriptCommand runScript fuel .agentThread script s = .returned () s')
    ∧ ((runScript script s).2.afterPending.guiHung = false →
        ∀ k, 1 ≤ k → k ≤ fuel →
          300 ≤ durationCastMs
            ((runScript script s).2.afterPending.gui.clock
                ((runScript script s).2.afterPending.gui.reads + k)
              - (runScript script s).2.afterPending.gui.clock
                  (runScript script s).2.afterPending.gui.reads) →
          ∃ s', Agent.onRunScriptCommand runScript fuel .agentThread script s = .returned () s')
    ∧ (∀ s', Agent.onRunScriptCommand runScript fuel .agentThread script s = .blocked s' →
        (runScript script s).1 = "" ∧ s'.sent = (runScript script s).2.sent)
    ∧ Agent.onRunScriptCommand runScript fuel .agentThread script s ≠ .assertFailed := by
  have hret : (runScript script s).1 ≠ "" ∨ Agent.GuiCompletes (settle fuel) (runScript script s).2 →
      ∃ s', Agent.onRunScriptCommand runScript fuel .agentThread script s = .returned () s' := by
    intro hc
    by_cases herr : (runScript script s).1 = ""
    · rw [onRunScriptCommand_ok runScript fuel script s hlive herr]
      rcases hc with hc | hc
      · exact absurd herr hc
      · obtain ⟨r, s2, hrun⟩ := runCodeInGuiThreadSync_progress (settle fuel) _ hc
        rw [hrun]
        exact ⟨_, rfl⟩
    · rw [onRunScriptCommand_error runScript fuel script s hlive herr]
      exact ⟨_, rfl⟩
  refine ⟨?_, hret, ?_, ?_, onRunScriptCommand_agentThread_ne_assertFailed runScript fuel script s hlive⟩
  · intro s' hs'
    by_cases herr : (runScript script s).1 = ""
    · rw [onRunScriptCommand_ok runScript fuel script s hlive herr] at hs'
      cases hrun : Agent.runCodeInGuiThreadSync .agentThread (settle fuel) (runScript script s).2 with
      | assertFailed => rw [hrun] at hs'; cases hs'
      | blocked s2 => rw [hrun] at hs'; cases hs'
      | returned r s2 =>
        have hsent := (runCodeInGuiThreadSync_sent (settle fuel) (runScript script s).2).1 r s2 hrun
        rw [hrun] at hs'
        cases hs'
        refine ⟨[⟨.ScriptEnd, ""⟩], ?_, by simp, by simp⟩
        simp [Agent.sendCommand, hsent]
    · rw [onRunScriptCommand_error runScript fuel script s hlive herr] at hs'
      cases hs'
      exact ⟨[⟨.ScriptError, (runScript script s).1⟩, ⟨.ScriptEnd, ""⟩], rfl, by simp, by simp⟩
  · intro hh k hk1 hk2 hexit
    exact hret (Or.inr ⟨hh, settle_isSome_of_clock fuel _ k hk1 hk2 hexit⟩)
  · intro s' hs'
    by_cases herr : (runScript script s).1 = ""
    · rw [onRunScriptCommand_ok runScript fuel script s hlive herr] at hs'
      cases hrun : Agent.runCodeInGuiThreadSync .agentThread (settle fuel) (runScript script s).2 with
      | assertFailed => rw [hrun] at hs'; cases hs'
      | blocked s2 =>
        have hsent := (runCodeInGuiThreadSync_sent (settle fuel) (runScript script s).2).2.1 s2 hrun
        rw [hrun] at hs'
        cases hs'
        exact ⟨herr, hsent⟩
      | returned r s2 => rw [hrun] at hs'; cases hs'
    · rw [onRunScriptCommand_error runScript fuel script s hlive herr] at hs'
      cases hs'

theorem onRunScriptCommand_one_ScriptEnd_last_witness :
    sampleAgent.threadFinished = false
    ∧ ∃ s' hp, Agent.onRunScriptCommand (fun (_ : Unit) s => ("", s)) 5 .agentThread () sampleAgent
          = .returned () s'
        ∧ s'.sent = sampleAgent.sent ++ hp
        ∧ hp.filter (fun p => p.ptype = .ScriptEnd) = [⟨.ScriptEnd, ""⟩]
        ∧ hp.getLast? = some ⟨.ScriptEnd, ""⟩ := by
  refine ⟨rfl, ?_⟩
  have h := onRunScriptCommand_one_ScriptEnd_last (fun (_ : Unit) s => ("", s)) 5 ()
    sampleAgent rfl
  obtain ⟨s', hs'⟩ := h.2.2.1 rfl 3 (by decide) (by decide) (by decide)
  obtain ⟨hp, h1, h2, h3⟩ := h.1 s' hs'
  exact ⟨s', hp, hs', h1, h2, h3⟩

end QtMonkey
